import Mathlib

/-!
# Arianna-HAR: verification of the activity-recognition pipeline

A shallow embedding of the Arianna-HAR Python sources (segment buffer,
recognition engine, family builder, preparation/dispatch coordinator and the
event scheduler) together with proofs about the behaviour the design document
ascribes to them.

Modelling conventions:
* Python `float` timestamps/durations are embedded as `ℚ` (the code only
  compares and subtracts them).
* Python `dict` is embedded as an association list in insertion order;
  `dictGet` is `dict.get`, `setKey` is `d[k] = v` (replace in place, append
  new keys at the end), mirroring CPython's ordered-dict semantics.
* Python `list[-n:]` is embedded as `sliceLast n` (including the `-0` quirk:
  `xs[-0:]` is the whole list).
* A `raise`/uncaught `IndexError` is an `Except.error`.
* The only genuinely concurrent part (the background pretask thread of
  `ProcedureR`) is modelled by an explicit `ThreadSt` record; `Thread.join`
  inside `cancel_pretask` is modelled as succeeding (the worker observes the
  one-shot stop event within the bounded wait), which is the optimistic
  outcome the code itself assumes after the join.
-/

/-- Python `dict.get key` over an association list (first matching key). -/
def dictGet {α β : Type} [DecidableEq α] : List (α × β) → α → Option β
  | [], _ => none
  | (k, v) :: rest, key => if k = key then some v else dictGet rest key

/-- Python `d[k] = v`: replace the value of an existing key in place,
otherwise append the new key at the end (insertion-ordered dict). -/
def setKey {α β : Type} [DecidableEq α] : List (α × β) → α → β → List (α × β)
  | [], k, v => [(k, v)]
  | (k', v') :: rest, k, v =>
    if k' = k then (k, v) :: rest else (k', v') :: setKey rest k v

/-- Python `l[-n:]`: the last `n` elements, except that `l[-0:]` is all of `l`. -/
def sliceLast {α : Type} (n : Nat) (l : List α) : List α :=
  if n = 0 then l else l.drop (l.length - n)

/-! ## Perception ontology (`ontologies/perception_ontology.py`) -/

/-- `PoseStatement`: a pose segment holding `label` from `start_time` to
`end_time`. -/
structure PoseStatement where
  label : String
  start_time : ℚ
  end_time : ℚ
  confidence : Option ℚ := none
  deriving Repr, DecidableEq

/-- `PoseStatement.duration`: `max(0.0, end_time - start_time)`. -/
def PoseStatement.duration (p : PoseStatement) : ℚ :=
  max 0 (p.end_time - p.start_time)

/-- `PoseStatement.extend_to`: move `end_time` forward, only if the new time is
strictly later. -/
def PoseStatement.extend_to (p : PoseStatement) (new_end_time : ℚ) : PoseStatement :=
  if new_end_time > p.end_time then { p with end_time := new_end_time } else p

/-! ## Human-action ontology (`ontologies/human_action_ontology.py`) -/

/-- `StepConstraint`: optional constraints for a single pose step. -/
structure StepConstraint where
  pose : String
  min_duration : Option ℚ := none
  max_duration : Option ℚ := none
  max_gap_after_prev : Option ℚ := none
  deriving Repr, DecidableEq

/-- `ActionConstraint`: optional constraints over the whole action. -/
structure ActionConstraint where
  min_total_duration : Option ℚ := none
  max_total_duration : Option ℚ := none
  deriving Repr, DecidableEq

/-- `ActionDefinition`: an action name with its template sequences and
optional per-sequence step constraints. -/
structure ActionDefinition where
  name : String
  sequences : List (List String)
  step_constraints : Option (List (Option (List StepConstraint))) := none
  action_constraint : Option ActionConstraint := none
  deriving Repr, DecidableEq

/-- `ActionInstance`: a recognized action occurrence. -/
structure ActionInstance where
  name : String
  matched_sequence : List String
  end_time : ℚ
  start_time : Option ℚ := none
  confidence : ℚ := 1
  deriving Repr, DecidableEq

/-- `ActionFamily`: actions sharing a common prefix (`pref` embeds the Python
field `prefix`, which is a reserved word in Lean). -/
structure ActionFamily where
  family_id : String
  pref : List String
  members : List String
  pre_task : Option String := none
  deriving Repr, DecidableEq

/-! ## Episode memory (`ontologies/memory_storage.py`) -/

/-- `EpisodeMemory`: per-human pose segments, recognized actions, executed
tasks. -/
structure EpisodeMemory where
  pose_segments : List PoseStatement := []
  recognized_actions : List ActionInstance := []
  executed_tasks : List String := []
  deriving Repr, DecidableEq

/-- `EpisodeMemory.pose_label_sequence`: the labels of the buffered segments. -/
def EpisodeMemory.pose_label_sequence (m : EpisodeMemory) : List String :=
  m.pose_segments.map PoseStatement.label

/-! ## Configuration (`config.py`) -/

/-- `MAX_POSE_BUFFER_LEN`: keep the last N pose segments. -/
def MAX_POSE_BUFFER_LEN : Nat := 50

/-! ## Procedure P (`procedures/procedure_p.py`) -/

/-- `ProcedureP.ingest_pose_label` acting on one human's `EpisodeMemory`:
compress consecutive duplicate labels into one segment, otherwise append a
fresh `(label, t, t)` segment and drop the oldest segments beyond
`MAX_POSE_BUFFER_LEN`. -/
def ingest_pose_label (memory : EpisodeMemory) (pose_label : String) (t : ℚ) :
    EpisodeMemory :=
  match memory.pose_segments.getLast? with
  | some last =>
    if last.label = pose_label then
      { memory with
          pose_segments := memory.pose_segments.dropLast ++ [last.extend_to t] }
    else
      let stmt : PoseStatement := { label := pose_label, start_time := t, end_time := t }
      let segs := memory.pose_segments ++ [stmt]
      { memory with
          pose_segments :=
            if MAX_POSE_BUFFER_LEN < segs.length then
              sliceLast MAX_POSE_BUFFER_LEN segs
            else segs }
  | none =>
    let stmt : PoseStatement := { label := pose_label, start_time := t, end_time := t }
    let segs := memory.pose_segments ++ [stmt]
    { memory with
        pose_segments :=
          if MAX_POSE_BUFFER_LEN < segs.length then
            sliceLast MAX_POSE_BUFFER_LEN segs
          else segs }

/-- Feed a whole stream of `(pose_label, t)` ticks through
`ingest_pose_label`. -/
def ingestAll (memory : EpisodeMemory) (ticks : List (String × ℚ)) : EpisodeMemory :=
  ticks.foldl (fun m tick => ingest_pose_label m tick.1 tick.2) memory

/-! ## Procedure A (`procedures/procedure_a.py`): action recognition -/

/-- The suffix test of `detect_action`:
`n <= len(labels) and labels[-n:] == seq`. -/
def matchSeq (labels : List String) (seq : List String) : Bool :=
  decide (seq.length ≤ labels.length) && decide (sliceLast seq.length labels = seq)

/-- `dur < m` for an optional bound `m` (`False` when the bound is absent). -/
def belowMin (dur : ℚ) : Option ℚ → Bool
  | some m => decide (dur < m)
  | none => false

/-- `dur > m` for an optional bound `m` (`False` when the bound is absent). -/
def aboveMax (dur : ℚ) : Option ℚ → Bool
  | some m => decide (m < dur)
  | none => false

/-- The gap test of `_check_step_constraints`: only for positions after the
first (`prev = some _`) and only when `max_gap_after_prev` is set. -/
def gapViolated (prev : Option PoseStatement) (c : StepConstraint)
    (seg : PoseStatement) : Bool :=
  match prev, c.max_gap_after_prev with
  | some p, some g => decide (g < seg.start_time - p.end_time)
  | _, _ => false

/-- The `for i, (seg, c) in enumerate(zip(...))` loop of
`_check_step_constraints`, carrying the previous segment. -/
def stepLoop : Option PoseStatement → List (PoseStatement × StepConstraint) → Bool
  | _, [] => true
  | prev, (seg, c) :: rest =>
    if seg.label ≠ c.pose then false
    else if belowMin seg.duration c.min_duration then false
    else if aboveMax seg.duration c.max_duration then false
    else if gapViolated prev c seg then false
    else stepLoop (some seg) rest

/-- `ProcedureA._check_step_constraints`. -/
def check_step_constraints (pose_segments : List PoseStatement) (seq_len : Nat)
    (step_constraints : Option (List StepConstraint)) : Bool :=
  match step_constraints with
  | none => true
  | some cs =>
    let matched_segments := sliceLast seq_len pose_segments
    if cs.length = matched_segments.length then
      stepLoop none (matched_segments.zip cs)
    else false

/-- `ProcedureA._check_action_constraint`. Indexing `matched_segments[0]` on an
empty list is Python's `IndexError`, embedded as `Except.error`. -/
def check_action_constraint (pose_segments : List PoseStatement) (seq_len : Nat)
    (action_constraint : Option ActionConstraint) : Except String (Bool × ℚ) :=
  match sliceLast seq_len pose_segments with
  | [] => .error "IndexError: matched_segments is empty"
  | first :: rest =>
    let start_t := first.start_time
    let end_t := (rest.getLastD first).end_time
    let total_dur := end_t - start_t
    match action_constraint with
    | none => .ok (true, start_t)
    | some ac =>
      if belowMin total_dur ac.min_total_duration then .ok (false, start_t)
      else if aboveMax total_dur ac.max_total_duration then .ok (false, start_t)
      else .ok (true, start_t)

/-- The per-sequence step constraints picked by `detect_action` for sequence
index `seq_idx`. -/
def scAt (adef : ActionDefinition) (seq_idx : Nat) : Option (List StepConstraint) :=
  match adef.step_constraints with
  | some l => l.getD seq_idx none
  | none => none

/-- The inner `for seq_idx, seq in enumerate(adef.sequences)` loop of
`detect_action` for one action. -/
def seqLoop (pose_segments : List PoseStatement) (labels : List String)
    (action_name : String) (adef : ActionDefinition) (now_t : ℚ) :
    Nat → List (List String) → Except String (Option ActionInstance)
  | _, [] => .ok none
  | seq_idx, seq :: rest =>
    if matchSeq labels seq then
      if check_step_constraints pose_segments seq.length (scAt adef seq_idx) then
        match check_action_constraint pose_segments seq.length adef.action_constraint with
        | .error e => .error e
        | .ok (ok_action, start_t) =>
          if ok_action then
            .ok (some { name := action_name, matched_sequence := seq,
                        start_time := some start_t, end_time := now_t,
                        confidence := 1 })
          else seqLoop pose_segments labels action_name adef now_t (seq_idx + 1) rest
      else seqLoop pose_segments labels action_name adef now_t (seq_idx + 1) rest
    else seqLoop pose_segments labels action_name adef now_t (seq_idx + 1) rest

/-- The outer `for action_name, adef in self.action_defs.items()` loop of
`detect_action`. -/
def actionLoop (pose_segments : List PoseStatement) (labels : List String)
    (now_t : ℚ) : List (String × ActionDefinition) → Except String (Option ActionInstance)
  | [] => .ok none
  | (action_name, adef) :: rest =>
    match seqLoop pose_segments labels action_name adef now_t 0 adef.sequences with
    | .error e => .error e
    | .ok (some inst) => .ok (some inst)
    | .ok none => actionLoop pose_segments labels now_t rest

/-- `ProcedureA.detect_action`: returns the detected instance (if any) and the
updated memory (the instance is appended to `recognized_actions`). -/
def detect_action (action_defs : List (String × ActionDefinition))
    (memory : EpisodeMemory) (now_t : ℚ) :
    Except String (Option ActionInstance × EpisodeMemory) :=
  match actionLoop memory.pose_segments memory.pose_label_sequence now_t action_defs with
  | .error e => .error e
  | .ok none => .ok (none, memory)
  | .ok (some inst) =>
    .ok (some inst,
         { memory with recognized_actions := memory.recognized_actions ++ [inst] })

/-- `ProcedureA._all_prefixes` / the prefix enumeration `seq[:k]` for
`k = 1 .. len(seq)`. -/
def allPrefixesOf (seq : List String) : List (List String) :=
  (List.range seq.length).map (fun k => seq.take (k + 1))

/-- `ProcedureA.compute_candidate_actions`: for each action, the lengths of its
template prefixes matching a suffix of the current labels (in iteration
order). -/
def compute_candidate_actions (action_defs : List (String × ActionDefinition))
    (memory : EpisodeMemory) : List (String × List Nat) :=
  let labels := memory.pose_label_sequence
  action_defs.foldl
    (fun acc p =>
      p.2.sequences.foldl
        (fun acc seq =>
          (allPrefixesOf seq).foldl
            (fun acc pref =>
              if matchSeq labels pref then
                match dictGet acc p.1 with
                | some ms => setKey acc p.1 (ms ++ [pref.length])
                | none => setKey acc p.1 [pref.length]
              else acc)
            acc)
        acc)
    []

/-! ### Specification-side model of `detect_action`

The design document describes `detect_action` as: take the first template, in
iteration order, whose labels are a suffix of the buffer and whose optional
constraints pass, and build an instance from it.  The following definitions
state that reading literally; the refinement theorem for C1 compares them with
the source translation above. -/

/-- Whether template `seq` (at index `seq_idx` of `adef`) matches the current
suffix and passes the optional step and whole-action constraints. -/
def seqQualifies (pose_segments : List PoseStatement) (labels : List String)
    (adef : ActionDefinition) (seq_idx : Nat) (seq : List String) : Bool :=
  matchSeq labels seq &&
  check_step_constraints pose_segments seq.length (scAt adef seq_idx) &&
  (match check_action_constraint pose_segments seq.length adef.action_constraint with
   | .ok (b, _) => b
   | .error _ => false)

/-- All qualifying `(action_name, template)` pairs, in iteration order. -/
def qualifyingTemplates (action_defs : List (String × ActionDefinition))
    (memory : EpisodeMemory) : List (String × List String) :=
  action_defs.bind
    (fun p =>
      ((p.2.sequences.enum.filter
          (fun e => seqQualifies memory.pose_segments memory.pose_label_sequence p.2 e.1 e.2)).map
        (fun e => (p.1, e.2))))

/-- The first qualifying `(action_name, template)` pair in iteration order. -/
def firstQualifying (action_defs : List (String × ActionDefinition))
    (memory : EpisodeMemory) : Option (String × List String) :=
  (qualifyingTemplates action_defs memory).head?

/-- The instance the design document prescribes for a qualifying template:
start at the first matched segment, end at `now_t`, confidence exactly 1. -/
def specInstance (memory : EpisodeMemory) (now_t : ℚ) (action_name : String)
    (seq : List String) : ActionInstance :=
  { name := action_name
    matched_sequence := seq
    end_time := now_t
    start_time := (sliceLast seq.length memory.pose_segments).head?.map PoseStatement.start_time
    confidence := 1 }

/-- Specification-side model of the whole `detect_action` call. -/
def detectActionModel (action_defs : List (String × ActionDefinition))
    (memory : EpisodeMemory) (now_t : ℚ) : Option ActionInstance × EpisodeMemory :=
  match firstQualifying action_defs memory with
  | none => (none, memory)
  | some (action_name, seq) =>
    let inst := specInstance memory now_t action_name seq
    (some inst,
     { memory with recognized_actions := memory.recognized_actions ++ [inst] })

/-! ## Building action definitions (`build_action_definitions`) -/

/-- One raw step-constraint `dict` from configuration. -/
structure RawStepConstraint where
  min_duration : Option ℚ := none
  max_duration : Option ℚ := none
  max_gap_after_prev : Option ℚ := none
  deriving Repr, DecidableEq

/-- `cdict = cdict or {}` followed by field lookups: a missing (`None`) raw
dict contributes no bounds. -/
def rawFields (c : Option RawStepConstraint) : RawStepConstraint :=
  c.getD { min_duration := none, max_duration := none, max_gap_after_prev := none }

/-- The `for pose_label, cdict in zip(seq, raw_seq_constraints)` conversion. -/
def convertSeqConstraints (seq : List String)
    (raw : List (Option RawStepConstraint)) : List StepConstraint :=
  (seq.zip raw).map
    (fun pc =>
      { pose := pc.1
        min_duration := (rawFields pc.2).min_duration
        max_duration := (rawFields pc.2).max_duration
        max_gap_after_prev := (rawFields pc.2).max_gap_after_prev })

/-- The `for seq_idx, seq in enumerate(sequences)` loop of
`build_action_definitions`: out-of-range constraint rows become `none`, a
length mismatch is a fatal `ValueError`. -/
def convertSeqs (action_name : String)
    (raw : List (List (Option RawStepConstraint))) :
    Nat → List (List String) → Except String (List (Option (List StepConstraint)))
  | _, [] => .ok []
  | seq_idx, seq :: rest =>
    match raw.get? seq_idx with
    | none =>
      (convertSeqs action_name raw (seq_idx + 1) rest).map (fun tl => none :: tl)
    | some raw_seq =>
      if raw_seq.length ≠ seq.length then
        .error ("Constraint length mismatch for " ++ action_name)
      else
        (convertSeqs action_name raw (seq_idx + 1) rest).map
          (fun tl => some (convertSeqConstraints seq raw_seq) :: tl)

/-- The step constraints configured for one action (`None` unless the
constraints dict is given and holds the action's name). -/
def rawConstraintsFor
    (step_constraints_dict : Option (List (String × List (List (Option RawStepConstraint)))))
    (action_name : String) : Option (List (List (Option RawStepConstraint))) :=
  match step_constraints_dict with
  | none => none
  | some scd => dictGet scd action_name

/-- `build_action_definitions`: attach optional step constraints to each
configured action; a constraint row of the wrong length aborts the build. -/
def build_action_definitions
    (action_def_dict : List (String × List (List String)))
    (step_constraints_dict : Option (List (String × List (List (Option RawStepConstraint))))) :
    Except String (List (String × ActionDefinition)) :=
  match action_def_dict with
  | [] => .ok []
  | (action_name, sequences) :: rest =>
    let scs : Except String (Option (List (Option (List StepConstraint)))) :=
      match rawConstraintsFor step_constraints_dict action_name with
      | some raw => (convertSeqs action_name raw 0 sequences).map some
      | none => .ok none
    match scs with
    | .error e => .error e
    | .ok step_constraints =>
      match build_action_definitions rest step_constraints_dict with
      | .error e => .error e
      | .ok tl =>
        .ok ((action_name,
              { name := action_name, sequences := sequences,
                step_constraints := step_constraints,
                action_constraint := none }) :: tl)

/-! ## Building action families (`build_action_families`) -/

/-- `prefix_to_members.setdefault(pref, set()).add(action_name)`: the member
set is embedded as a duplicate-free list in first-insertion order. -/
def addMember (m : List (List String × List String)) (pref : List String)
    (action_name : String) : List (List String × List String) :=
  match m with
  | [] => [(pref, [action_name])]
  | (k, v) :: rest =>
    if k = pref then
      (k, if action_name ∈ v then v else v ++ [action_name]) :: rest
    else (k, v) :: addMember rest pref action_name

/-- Insert into a duplicate-free member list. -/
def insertNew (v : List String) (action_name : String) : List String :=
  if action_name ∈ v then v else v ++ [action_name]

/-- Register all nonempty prefixes of one template for one action. -/
def addSeqPrefixes (m : List (List String × List String)) (action_name : String)
    (seq : List String) : List (List String × List String) :=
  (allPrefixesOf seq).foldl (fun m pref => addMember m pref action_name) m

/-- The `prefix_to_members` map of `build_action_families`. -/
def buildPrefixMap (action_defs : List (String × ActionDefinition)) :
    List (List String × List String) :=
  action_defs.foldl
    (fun m p => p.2.sequences.foldl (fun m seq => addSeqPrefixes m p.1 seq) m)
    []

/-- `family_id = "F_" + "_".join(pref)`. -/
def familyId (pref : List String) : String :=
  "F_" ++ String.intercalate "_" pref

/-- `build_action_families`: a prefix qualifies iff it is long enough and
shared by enough distinct actions; families are stored in a dict keyed by
`familyId` (so a later prefix with the same id overwrites an earlier one). -/
def build_action_families (action_defs : List (String × ActionDefinition))
    (min_prefix_len : Nat) (min_members : Nat)
    ( pretask_by_prefix : List (List String × String)) :
    List (String × ActionFamily) :=
  (buildPrefixMap action_defs).foldl
    (fun families pm =>
      if pm.1.length < min_prefix_len then families
      else if pm.2.length < min_members then families
      else
        setKey families (familyId pm.1)
          { family_id := familyId pm.1
            pref := pm.1
            members := pm.2
            pre_task := dictGet pretask_by_prefix pm.1 })
    []

/-! ## Robot ontology (`ontologies/robot_ontology.py`, `robot/robot_interface.py`) -/

/-- `BehaviorStep`: a named behavior primitive with optional parameters. -/
structure BehaviorStep where
  name : String
  params : List (String × String) := []
  deriving Repr, DecidableEq

/-- `TaskDefinition`: a named, ordered list of behavior steps. -/
structure TaskDefinition where
  name : String
  steps : List BehaviorStep
  deriving Repr, DecidableEq

/-- `SpotRobotSim.execute_task` without a stop event: every behavior step runs
to completion; the log records the executed step names in order. -/
def execute_task_sync (robot_steps : List String) (task : TaskDefinition) :
    List String :=
  robot_steps ++ task.steps.map BehaviorStep.name

/-! ## Procedure R (`procedures/procedure_r.py`): preparation and dispatch -/

/-- The background pretask thread: alive flag plus its one-shot stop event. -/
structure ThreadSt where
  alive : Bool
  stop_set : Bool
  deriving Repr, DecidableEq

/-- The mutable state of `ProcedureR` together with the observable effects on
the robot: `robot_steps` records behavior steps executed synchronously on the
actuator by `dispatch`, `started_pretasks` records each background preparation
routine started by `prepare_family`. -/
structure CoordState where
  current_prepared_family_id : Option String := none
  pretask_thread : Option ThreadSt := none
  executed_tasks : List String := []
  robot_steps : List String := []
  started_pretasks : List String := []
  deriving Repr, DecidableEq

/-- `ProcedureR.cancel_pretask`: set the stop event and (optionally) join.
The join is modelled as succeeding within its bounded timeout (the worker
checks the event between steps), after which the dead thread is cleaned up. -/
def cancel_pretask (s : CoordState) (join : Bool) : CoordState :=
  match s.pretask_thread with
  | none => s
  | some th =>
    let th1 : ThreadSt := { th with stop_set := true }
    let th2 : ThreadSt := if join && th1.alive then { th1 with alive := false } else th1
    if th2.alive then { s with pretask_thread := some th2 }
    else { s with pretask_thread := none }

/-- `ProcedureR.clear_preparation`. -/
def clear_preparation (s : CoordState) : CoordState :=
  { s with current_prepared_family_id := none }

/-- `ProcedureR.prepare_family`: no-op without a pretask; no-op whenever the
prepared-family marker already names this family (whether or not the thread is
still alive); otherwise cancel-and-join any previous pretask and, if the
pretask name resolves, start a fresh background routine (an unknown name is
logged as a warning, the family is still marked prepared). -/
def prepare_family (pretasks : List (String × TaskDefinition)) (s : CoordState)
    (family : ActionFamily) : CoordState :=
  match family.pre_task with
  | none => s
  | some pretask_name =>
    if s.current_prepared_family_id = some family.family_id then s
    else
      let s1 := cancel_pretask s true
      match dictGet pretasks pretask_name with
      | none => { s1 with current_prepared_family_id := some family.family_id }
      | some _task_def =>
        { s1 with
            pretask_thread := some { alive := true, stop_set := false }
            current_prepared_family_id := some family.family_id
            started_pretasks := s1.started_pretasks ++ [pretask_name] }

/-- `ACTION_TO_TASK` (`config.py`). -/
def ACTION_TO_TASK : List (String × String) :=
  [("drinking_water", "localise_and_deliver_bottle_of_water"),
   ("requesting_for_a_book", "localise_and_deliver_book"),
   ("waste_disposal", "approach_collect_and_bin_can"),
   ("picking_objects_from_floor", "localise_and_deliver_object_from_floor"),
   ("washing_hands", "localise_and_deliver_sponge")]

/-- `ProcedureR.dispatch`: cancel-and-join any pretask, clear the prepared
marker, resolve the action name through `ACTION_TO_TASK` (no mapping is a
fatal `ValueError`), execute the task synchronously, record it, return its
name.  The state is returned even on error (Python mutations before the raise
survive). -/
def dispatch (tasks : List (String × TaskDefinition)) (s : CoordState)
    (action_inst : ActionInstance) : CoordState × Except String String :=
  let s1 := clear_preparation (cancel_pretask s true)
  match dictGet ACTION_TO_TASK action_inst.name with
  | none => (s1, .error ("No task mapping for action: " ++ action_inst.name))
  | some task_name =>
    match dictGet tasks task_name with
    | none => (s1, .error ("KeyError: " ++ task_name))
    | some task_def =>
      ({ s1 with
           robot_steps := execute_task_sync s1.robot_steps task_def
           executed_tasks := s1.executed_tasks ++ [task_name] },
       .ok task_name)

/-! ## Event scheduler (`scheduler.py`) -/

/-- `RuntimeEvent`: a named event with payload and timestamp. -/
structure REvent (π : Type) where
  name : String
  payload : π
  t : ℚ

/-- A procedure as the scheduler sees it: a guard (`can_run`, the conjunction
of its conditions) and a body returning the updated shared state plus the
events it emits, in order. -/
structure SProcedure (σ π : Type) where
  name : String
  can_run : σ → REvent π → Bool
  run : σ → REvent π → σ × List (String × π × ℚ)

/-- `EventScheduler`: shared state, registration table, FIFO queue and the
two counters. -/
structure Sched (σ π : Type) where
  state : σ
  procedures_by_event : List (String × List (SProcedure σ π)) := []
  queue : List (REvent π) := []
  event_counter : Nat := 0
  cycle_id : Nat := 0

/-- `EventScheduler.emit`: bump the sequence counter (and the cycle counter on
a `PoseTick`), then append the event to the tail of the queue. -/
def Sched.emit {σ π : Type} (s : Sched σ π) (name : String) (payload : π)
    (t : ℚ) : Sched σ π :=
  { s with
      event_counter := s.event_counter + 1
      cycle_id := if name = "PoseTick" then s.cycle_id + 1 else s.cycle_id
      queue := s.queue ++ [{ name := name, payload := payload, t := t }] }

/-- Emit a list of requested events in order. -/
def Sched.emitAll {σ π : Type} : Sched σ π → List (String × π × ℚ) → Sched σ π
  | s, [] => s
  | s, (n, p, t) :: rest => (s.emit n p t).emitAll rest

/-- The `for proc in procs` loop of `EventScheduler._dispatch`: run each
condition-satisfying procedure in registration order; its emissions go through
`emit` (to the queue tail) before the next procedure runs. -/
def runProcs {σ π : Type} (ev : REvent π) :
    Sched σ π → List (SProcedure σ π) → Sched σ π
  | s, [] => s
  | s, proc :: rest =>
    if proc.can_run s.state ev then
      runProcs ev
        (Sched.emitAll { s with state := (proc.run s.state ev).1 }
          (proc.run s.state ev).2)
        rest
    else runProcs ev s rest

/-- `EventScheduler._dispatch`: run all procedures registered for the event's
name. -/
def dispatchEvent {σ π : Type} (s : Sched σ π) (ev : REvent π) : Sched σ π :=
  runProcs ev s ((dictGet s.procedures_by_event ev.name).getD [])

/-- `EventScheduler.run_until_idle`: pop events FIFO, fully dispatching one
event before the next, for at most `max_events` events; return the final
scheduler and the number of events processed. -/
def run_until_idle {σ π : Type} : Sched σ π → Nat → Sched σ π × Nat
  | s, 0 => (s, 0)
  | s, fuel + 1 =>
    match s.queue with
    | [] => (s, 0)
    | ev :: rest =>
      let r := run_until_idle (dispatchEvent { s with queue := rest } ev) fuel
      (r.1, r.2 + 1)

/-! ## Early-intent best-family selection -/

/-- Fold step selecting the better of two candidate families: strictly longer
matching prefix wins, a tie on length is broken by the lexicographically
smaller `family_id`. -/
def pickBetter (best : Option ActionFamily) (f : ActionFamily) :
    Option ActionFamily :=
  match best with
  | none => some f
  | some b =>
    if b.pref.length < f.pref.length then some f
    else if f.pref.length = b.pref.length ∧ f.family_id < b.family_id then some f
    else some b

/-- Modelled from the spec: `compute_early_intent` and its best-family choice
are absent from `src/` (only the caller `proc_early_intent` in `main.py`
remains).  Per the design document: the candidate families are those whose
entire prefix equals the current label-suffix; the best family is the one with
the greatest matching prefix length, ties broken by a fixed lexicographic
order on `family_id`. -/
def best_family (families : List ActionFamily) (labels : List String) :
    Option ActionFamily :=
  (families.filter (fun f => decide (f.pref <:+ labels))).foldl pickBetter none

/-! ## Concrete configuration data (`config.py`) -/

/-- `ACTION_DEFINITIONS` built into `ActionDefinition`s (the configured action
set carries no time constraints, so `build_action_definitions` attaches
`none`). -/
def ariannaActionDefs : List (String × ActionDefinition) :=
  [("drinking_water",
    { name := "drinking_water",
      sequences := [["sitting", "standing", "walking", "picking", "walking", "sitting"]] }),
   ("requesting_for_a_book",
    { name := "requesting_for_a_book",
      sequences := [["walking", "sitting", "raising_hand"]] }),
   ("waste_disposal",
    { name := "waste_disposal",
      sequences := [["sitting", "standing", "walking", "picking", "walking", "sitting", "drinking"]] }),
   ("picking_objects_from_floor",
    { name := "picking_objects_from_floor",
      sequences := [["standing", "picking", "raising_hand"]] }),
   ("washing_hands",
    { name := "washing_hands",
      sequences := [["sitting", "standing", "walking", "bowing"]] })]

/-- `TASK_DEFINITIONS` (step names; parameters omitted as they do not affect
control flow). -/
def ariannaTasks : List (String × TaskDefinition) :=
  [("localise_and_deliver_bottle_of_water",
    { name := "localise_and_deliver_bottle_of_water",
      steps := [{ name := "search_object" }, { name := "approach_object" },
                { name := "grasp_object" }, { name := "search_object" },
                { name := "approach_object" }, { name := "release_object" },
                { name := "return_to_start" }] }),
   ("localise_and_deliver_book",
    { name := "localise_and_deliver_book",
      steps := [{ name := "search_object" }, { name := "approach_object" },
                { name := "grasp_object" }, { name := "search_object" },
                { name := "approach_object" }, { name := "release_object" },
                { name := "return_to_start" }] }),
   ("approach_collect_and_bin_can",
    { name := "approach_collect_and_bin_can",
      steps := [{ name := "search_object" }, { name := "approach_object" },
                { name := "collect_object" }, { name := "navigate_to" },
                { name := "drop_object" }, { name := "return_to_start" }] }),
   ("localise_and_deliver_object_from_floor",
    { name := "localise_and_deliver_object_from_floor",
      steps := [{ name := "search_object" }, { name := "approach_object" },
                { name := "grasp_object" }, { name := "search_object" },
                { name := "approach_object" }, { name := "release_object" },
                { name := "return_to_start" }] }),
   ("localise_and_deliver_sponge",
    { name := "localise_and_deliver_sponge",
      steps := [{ name := "search_object" }, { name := "approach_object" },
                { name := "grasp_object" }, { name := "search_object" },
                { name := "approach_object" }, { name := "release_object" },
                { name := "return_to_start" }] })]

/-- `PRETASK_DEFINITIONS`. -/
def ariannaPretasks : List (String × TaskDefinition) :=
  [("pretask_observe_and_scan",
    { name := "pretask_observe_and_scan",
      steps := [{ name := "face_human" }, { name := "move_to_observation_point" },
                { name := "scan_environment" }] }),
   ("pretask_scan_pick_area",
    { name := "pretask_scan_pick_area",
      steps := [{ name := "face_human" }, { name := "scan_pick_zone" }] }),
   ("pretask_scan_floor_area",
    { name := "pretask_scan_floor_area",
      steps := [{ name := "tilt_sensors_down" }, { name := "scan_floor" }] }),
   ("pretask_scan_book_area",
    { name := "pretask_scan_book_area",
      steps := [{ name := "scan_shelves_for_book" }] })]

/-- `FAMILY_PRETASK_BY_PREFIX`. -/
def ariannaPretaskByPrefix : List (List String × String) :=
  [(["sitting", "standing", "walking"], "pretask_observe_and_scan"),
   (["sitting", "standing", "walking", "picking"], "pretask_scan_pick_area"),
   (["standing", "picking"], "pretask_scan_floor_area"),
   (["walking", "sitting"], "pretask_scan_book_area")]

/-! ## Specification-side helpers for the family builder -/

/-- Whether `pref` is a nonempty prefix of one of the action's templates. -/
def hasPref (adef : ActionDefinition) (pref : List String) : Bool :=
  adef.sequences.any (fun seq => decide (pref ≠ []) && decide (pref <+: seq))

/-- Whether `pref` is a nonempty prefix of some configured action's template. -/
def prefixOccurs (action_defs : List (String × ActionDefinition))
    (pref : List String) : Bool :=
  action_defs.any (fun p => hasPref p.2 pref)

/-- The distinct action names sharing `pref`, in configuration order. -/
def memberNames (action_defs : List (String × ActionDefinition))
    (pref : List String) : List String :=
  (action_defs.filter (fun p => hasPref p.2 pref)).map Prod.fst

/-- The value-level fold mirroring how `buildPrefixMap` accumulates one
prefix's member set across the configured actions. -/
def addMembers (action_defs : List (String × ActionDefinition))
    (pref : List String) (v : List String) : List String :=
  action_defs.foldl (fun v p => if hasPref p.2 pref then insertNew v p.1 else v) v

/-- A configuration exhibiting a `familyId` collision: the distinct prefixes
`["a", "b_c"]` and `["a_b", "c"]` both produce the id `"F_a_b_c"`. -/
def cexDefsC6 : List (String × ActionDefinition) :=
  [("act_x", { name := "act_x", sequences := [["a", "b_c"], ["a_b", "c"]] }),
   ("act_y", { name := "act_y", sequences := [["a", "b_c"], ["a_b", "c"]] })]

/-- The buffer with the fresh `(label, t, t)` segment appended, before the
length bound is enforced. -/
def appendedSegs (m : EpisodeMemory) (lab : String) (t : ℚ) : List PoseStatement :=
  m.pose_segments ++ [{ label := lab, start_time := t, end_time := t }]

/-- The segment created for a tick `(label, t)`. -/
def mkSeg (tick : String × ℚ) : PoseStatement :=
  { label := tick.1, start_time := tick.2, end_time := tick.2 }

/-- A concrete 51-tick stream with no two consecutive labels equal. -/
def wTicks : List (String × ℚ) :=
  (List.range 51).map (fun i => (if i % 2 = 0 then "a" else "b", (0 : ℚ)))

/-- Executable check that no tick in `l` repeats the label of its
predecessor (`a` is the predecessor). -/
def adjacentDistinctAux : String × ℚ → List (String × ℚ) → Bool
  | _, [] => true
  | a, b :: rest => decide (a.1 ≠ b.1) && adjacentDistinctAux b rest

/-- Executable check that no two consecutive ticks carry the same label. -/
def adjacentDistinct : List (String × ℚ) → Bool
  | [] => true
  | a :: rest => adjacentDistinctAux a rest

/-- A family marked prepared earlier, whose background routine is no longer
running (no thread object at all). -/
def prevPreparedState : CoordState :=
  { current_prepared_family_id := some "F_standing_picking" }

/-- The family with prefix `["standing", "picking"]` and its configured
pretask. -/
def famStandPick : ActionFamily :=
  { family_id := "F_standing_picking", pref := ["standing", "picking"],
    members := ["picking_objects_from_floor", "other_action"],
    pre_task := some "pretask_scan_floor_area" }

/-- The family with prefix `["sitting", "standing", "walking"]` and its
configured pretask. -/
def famSitStandWalk : ActionFamily :=
  { family_id := "F_sitting_standing_walking",
    pref := ["sitting", "standing", "walking"],
    members := ["drinking_water", "waste_disposal", "washing_hands"],
    pre_task := some "pretask_observe_and_scan" }

/-- The step-constraint conversion result for one action (the `let scs`
of `build_action_definitions`). -/
def scsOf (step_constraints_dict : Option (List (String × List (List (Option RawStepConstraint)))))
    (action_name : String) (sequences : List (List String)) :
    Except String (Option (List (Option (List StepConstraint)))) :=
  match rawConstraintsFor step_constraints_dict action_name with
  | some raw => (convertSeqs action_name raw 0 sequences).map some
  | none => .ok none

/-- A family whose configured pretask name resolves to nothing. -/
def famBogusPretask : ActionFamily :=
  { family_id := "F_walking_sitting", pref := ["walking", "sitting"],
    members := ["requesting_for_a_book", "other_action"],
    pre_task := some "pretask_missing" }

/-- A one-procedure scheduler used as a concrete witness: the procedure
increments the shared counter and emits one derived event. -/
def wProc : SProcedure Nat Nat :=
  { name := "IncrementAndEmit"
    can_run := fun _ _ => true
    run := fun st ev => (st + 1, [("Derived", ev.payload, ev.t)]) }

/-- The witness scheduler's initial event. -/
def wEv : REvent Nat :=
  { name := "PoseTick", payload := 7, t := 0 }

/-- The witness scheduler: one registered procedure, one queued event. -/
def wSched : Sched Nat Nat :=
  { state := 0
    procedures_by_event := [("PoseTick", [wProc])]
    queue := [wEv] }

/-- The selection order of `pickBetter`: `r` is at least as good as `g`
(longer prefix, or same length and a no-larger family id). -/
def domFam (r g : ActionFamily) : Prop :=
  g.pref.length ≤ r.pref.length ∧
  (g.pref.length = r.pref.length → r.family_id ≤ g.family_id)

/-- Witness families for C9: both match the labels, with different matching
prefix lengths. -/
def wFamA : ActionFamily :=
  { family_id := "F_a_b", pref := ["a", "b"], members := ["x", "y"] }

/-- Second witness family, shorter prefix. -/
def wFamB : ActionFamily :=
  { family_id := "F_b", pref := ["b"], members := ["x", "z"] }

/-- The Boolean outcome of the whole-action constraint check (`False` when the
check crashes on an empty match). -/
def actionOkB (pose_segments : List PoseStatement) (seq_len : Nat)
    (action_constraint : Option ActionConstraint) : Bool :=
  match check_action_constraint pose_segments seq_len action_constraint with
  | .ok (b, _) => b
  | .error _ => false

/-- The instance the design document prescribes, phrased over the raw segment
buffer. -/
def specInstFor (pose_segments : List PoseStatement) (now_t : ℚ)
    (action_name : String) (seq : List String) : ActionInstance :=
  { name := action_name
    matched_sequence := seq
    end_time := now_t
    start_time := (sliceLast seq.length pose_segments).head?.map PoseStatement.start_time
    confidence := 1 }

/-! # Theorems

General-purpose lemmas about the embedding primitives, followed by one main
theorem per claim of the design review. -/

theorem sliceLast_eq_self {α : Type} {n : Nat} {l : List α} (h : l.length ≤ n) :
    sliceLast n l = l := by
  unfold sliceLast
  split
  · rfl
  · rw [Nat.sub_eq_zero_of_le h, List.drop_zero]

theorem sliceLast_length {α : Type} {n : Nat} (hn : n ≠ 0) (l : List α) :
    (sliceLast n l).length = min n l.length := by
  unfold sliceLast
  rw [if_neg hn, List.length_drop]
  omega

theorem sliceLast_ne_nil {α : Type} {n : Nat} {l : List α} (hn : n ≠ 0)
    (hl : l ≠ []) : sliceLast n l ≠ [] := by
  have h1 : 1 ≤ l.length := List.length_pos.mpr hl
  have h2 : (sliceLast n l).length = min n l.length := sliceLast_length hn l
  intro hc
  rw [hc] at h2
  simp at h2
  omega

theorem sliceLast_getLast? {α : Type} {n : Nat} (hn : n ≠ 0) (l : List α) :
    (sliceLast n l).getLast? = l.getLast? := by
  rcases eq_or_ne l [] with rfl | hl
  · simp [sliceLast]
  · have h1 : 1 ≤ l.length := List.length_pos.mpr hl
    unfold sliceLast
    rw [if_neg hn, List.getLast?_drop, if_neg (by omega)]

theorem sliceLast_append_singleton {α : Type} {n : Nat} (hn : 2 ≤ n)
    (l : List α) (a : α) :
    sliceLast n (l ++ [a]) = sliceLast (n - 1) l ++ [a] := by
  unfold sliceLast
  rw [if_neg (by omega), if_neg (by omega)]
  have hlen : (l ++ [a]).length = l.length + 1 := by simp
  rw [hlen, List.drop_append_of_le_length (by omega)]
  congr 2
  omega

theorem sliceLast_sliceLast {α : Type} {m n : Nat} (hm : m ≠ 0) (hmn : m ≤ n)
    (l : List α) : sliceLast m (sliceLast n l) = sliceLast m l := by
  have hn : n ≠ 0 := by omega
  unfold sliceLast
  rw [if_neg hn, if_neg hm, if_neg hm, List.drop_drop, List.length_drop]
  congr 1
  omega

theorem mem_sliceLast {α : Type} {n : Nat} {l : List α} {x : α}
    (h : x ∈ sliceLast n l) : x ∈ l := by
  unfold sliceLast at h
  split at h
  · exact h
  · exact List.mem_of_mem_drop h

theorem chain'_drop {α : Type} {R : α → α → Prop} {l : List α}
    (h : List.Chain' R l) (n : Nat) : List.Chain' R (l.drop n) := by
  induction n with
  | zero => simpa
  | succ n ih =>
    rw [← List.tail_drop]
    exact ih.tail

theorem chain'_sliceLast {α : Type} {R : α → α → Prop} {l : List α}
    (h : List.Chain' R l) (n : Nat) : List.Chain' R (sliceLast n l) := by
  unfold sliceLast
  split
  · exact h
  · exact chain'_drop h _

theorem dropLast_append_of_getLast? {α : Type} {l : List α} {a : α}
    (h : l.getLast? = some a) : l.dropLast ++ [a] = l := by
  have hne : l ≠ [] := by rintro rfl; simp at h
  have h2 := List.getLast?_eq_getLast l hne
  rw [h2, Option.some_inj] at h
  rw [← h, List.dropLast_append_getLast hne]

theorem dictGet_mem {α β : Type} [DecidableEq α] {m : List (α × β)} {k : α}
    {v : β} (h : dictGet m k = some v) : (k, v) ∈ m := by
  induction m with
  | nil => simp [dictGet] at h
  | cons p rest ih =>
    rcases p with ⟨k', v'⟩
    unfold dictGet at h
    split at h
    · rename_i heq
      rw [Option.some_inj] at h
      subst heq h
      exact List.mem_cons_self _ _
    · exact List.mem_cons_of_mem _ (ih h)

theorem mem_dictGet_of_nodup {α β : Type} [DecidableEq α] {m : List (α × β)}
    (hnd : (m.map Prod.fst).Nodup) {k : α} {v : β} (h : (k, v) ∈ m) :
    dictGet m k = some v := by
  induction m with
  | nil => simp at h
  | cons p rest ih =>
    rcases p with ⟨k', v'⟩
    rw [List.map_cons, List.nodup_cons] at hnd
    rcases List.mem_cons.mp h with heq | hmem
    · rw [Prod.mk.injEq] at heq
      unfold dictGet
      rw [if_pos heq.1.symm, heq.2]
    · unfold dictGet
      split
      · rename_i heq
        exact absurd (List.mem_map.mpr ⟨(k, v), hmem, by rw [heq]⟩) hnd.1
      · exact ih hnd.2 hmem

/-- `extend_to` never changes the label. -/
theorem extend_to_label (p : PoseStatement) (t : ℚ) :
    (p.extend_to t).label = p.label := by
  unfold PoseStatement.extend_to
  split <;> rfl

/-- Unfolding `ingest_pose_label` in the merge case (the last buffered segment
carries the same label). -/
theorem ingest_merge_case (m : EpisodeMemory) (lab : String) (t : ℚ)
    (last : PoseStatement) (hgl : m.pose_segments.getLast? = some last)
    (hlab : last.label = lab) :
    ingest_pose_label m lab t =
      { m with pose_segments := m.pose_segments.dropLast ++ [last.extend_to t] } := by
  unfold ingest_pose_label
  rw [hgl]
  simp [hlab]

/-- Unfolding `ingest_pose_label` in the append case (empty buffer or a
different last label). -/
theorem ingest_append_case (m : EpisodeMemory) (lab : String) (t : ℚ)
    (h : ∀ last ∈ m.pose_segments.getLast?, last.label ≠ lab) :
    ingest_pose_label m lab t =
      { m with pose_segments :=
          if MAX_POSE_BUFFER_LEN < (appendedSegs m lab t).length then
            sliceLast MAX_POSE_BUFFER_LEN (appendedSegs m lab t)
          else appendedSegs m lab t } := by
  unfold ingest_pose_label appendedSegs
  rcases hgl : m.pose_segments.getLast? with _ | last
  · rfl
  · have hne : last.label ≠ lab := h last (by rw [hgl]; exact Option.mem_some_self last)
    simp only [if_neg hne]

/-- C10: `extend_to` moves `end_time` only strictly forward (an equal or
out-of-order timestamp leaves the segment unchanged), every buffered segment
satisfies `start_time ≤ end_time` under ingestion, and `duration` is never
negative. -/
theorem segment_time_monotonic :
    (∀ (p : PoseStatement) (t : ℚ), t ≤ p.end_time → p.extend_to t = p) ∧
    (∀ (p : PoseStatement) (t : ℚ), p.end_time < t →
       p.extend_to t = { p with end_time := t }) ∧
    (∀ (p : PoseStatement) (t : ℚ), p.end_time ≤ (p.extend_to t).end_time) ∧
    (∀ p : PoseStatement, 0 ≤ p.duration) ∧
    (∀ (m : EpisodeMemory) (lab : String) (t : ℚ),
       (∀ s ∈ m.pose_segments, s.start_time ≤ s.end_time) →
       ∀ s ∈ (ingest_pose_label m lab t).pose_segments,
         s.start_time ≤ s.end_time) := by
  refine ⟨?_, ?_, ?_, ?_, ?_⟩
  · intro p t h
    unfold PoseStatement.extend_to
    rw [if_neg (by exact not_lt.mpr h)]
  · intro p t h
    unfold PoseStatement.extend_to
    rw [if_pos h]
  · intro p t
    unfold PoseStatement.extend_to
    split
    · exact le_of_lt (by assumption)
    · exact le_refl _
  · intro p
    exact le_max_left _ _
  · intro m lab t hinv s hs
    by_cases hmerge : ∃ last, m.pose_segments.getLast? = some last ∧ last.label = lab
    · obtain ⟨last, hgl, hlab⟩ := hmerge
      rw [ingest_merge_case m lab t last hgl hlab] at hs
      rcases List.mem_append.mp hs with hd | he
      · exact hinv s (List.mem_of_mem_dropLast hd)
      · have hse : s = last.extend_to t := by simpa using he
        subst hse
        have hstart : (last.extend_to t).start_time = last.start_time := by
          unfold PoseStatement.extend_to
          split <;> rfl
        rw [hstart]
        calc last.start_time ≤ last.end_time :=
              hinv last (List.mem_of_mem_getLast? hgl)
          _ ≤ (last.extend_to t).end_time := by
              unfold PoseStatement.extend_to
              split
              · exact le_of_lt (by assumption)
              · exact le_refl _
    · have hno : ∀ last ∈ m.pose_segments.getLast?, last.label ≠ lab := by
        intro last hl hc
        exact hmerge ⟨last, hl, hc⟩
      rw [ingest_append_case m lab t hno] at hs
      have hs1 : s ∈ (if MAX_POSE_BUFFER_LEN < (appendedSegs m lab t).length then
          sliceLast MAX_POSE_BUFFER_LEN (appendedSegs m lab t)
        else appendedSegs m lab t) := hs
      have hs2 : s ∈ appendedSegs m lab t := by
        by_cases hc : MAX_POSE_BUFFER_LEN < (appendedSegs m lab t).length
        · rw [if_pos hc] at hs1
          exact mem_sliceLast hs1
        · rw [if_neg hc] at hs1
          exact hs1
      rcases List.mem_append.mp hs2 with hd | he
      · exact hinv s hd
      · have hse : s = { label := lab, start_time := t, end_time := t } := by
          simpa using he
        subst hse
        exact le_refl t

/-- Witness for C10 at a concrete segment, timestamp and memory. -/
theorem segment_time_monotonic_witness :
    PoseStatement.extend_to { label := "sitting", start_time := 2, end_time := 5 } 3 =
      { label := "sitting", start_time := 2, end_time := 5 } ∧
    ∀ s ∈ (ingest_pose_label
        { pose_segments := [{ label := "sitting", start_time := 0, end_time := 1 }] }
        "standing" 2).pose_segments, s.start_time ≤ s.end_time := by
  constructor
  · exact segment_time_monotonic.1 _ 3 (by norm_num)
  · exact segment_time_monotonic.2.2.2.2 _ "standing" 2 (by
      intro s hs
      simp only [List.mem_singleton] at hs
      subst hs
      norm_num)

/-- C5: the buffer never holds two adjacent segments with the same label:
ingesting the last segment's label merges into it (extending `end_time`,
appending nothing), ingesting a different label appends a fresh `(t, t)`
segment. -/
theorem no_adjacent_duplicate_labels :
    (∀ (m : EpisodeMemory) (lab : String) (t : ℚ),
       List.Chain' (fun a b => a.label ≠ b.label) m.pose_segments →
       List.Chain' (fun a b => a.label ≠ b.label)
         (ingest_pose_label m lab t).pose_segments) ∧
    (∀ (m : EpisodeMemory) (lab : String) (t : ℚ) (last : PoseStatement),
       m.pose_segments.getLast? = some last → last.label = lab →
       (ingest_pose_label m lab t).pose_segments =
         m.pose_segments.dropLast ++ [last.extend_to t] ∧
       (ingest_pose_label m lab t).pose_segments.length =
         m.pose_segments.length) ∧
    (∀ (m : EpisodeMemory) (lab : String) (t : ℚ),
       (∀ last ∈ m.pose_segments.getLast?, last.label ≠ lab) →
       (ingest_pose_label m lab t).pose_segments.getLast? =
         some { label := lab, start_time := t, end_time := t }) := by
  refine ⟨?_, ?_, ?_⟩
  · intro m lab t hchain
    by_cases hmerge : ∃ last, m.pose_segments.getLast? = some last ∧ last.label = lab
    · obtain ⟨last, hgl, hlab⟩ := hmerge
      rw [ingest_merge_case m lab t last hgl hlab]
      have hdecomp : m.pose_segments.dropLast ++ [last] = m.pose_segments :=
        dropLast_append_of_getLast? hgl
      rw [← hdecomp] at hchain
      rcases List.chain'_append.mp hchain with ⟨h1, _, h3⟩
      refine List.chain'_append.mpr ⟨h1, List.chain'_singleton _, ?_⟩
      intro x hx y hy
      simp only [List.head?_cons, Option.mem_some_iff] at hy
      subst hy
      rw [extend_to_label]
      exact h3 x hx last (by simp)
    · have hno : ∀ last ∈ m.pose_segments.getLast?, last.label ≠ lab := by
        intro last hl hc
        exact hmerge ⟨last, hl, hc⟩
      rw [ingest_append_case m lab t hno]
      have happ : List.Chain' (fun a b => a.label ≠ b.label) (appendedSegs m lab t) := by
        refine List.chain'_append.mpr ⟨hchain, List.chain'_singleton _, ?_⟩
        intro x hx y hy
        simp only [List.head?_cons, Option.mem_some_iff] at hy
        subst hy
        exact hno x hx
      show List.Chain' _ (if _ then _ else _)
      split
      · exact chain'_sliceLast happ _
      · exact happ
  · intro m lab t last hgl hlab
    rw [ingest_merge_case m lab t last hgl hlab]
    refine ⟨rfl, ?_⟩
    have hne : m.pose_segments ≠ [] := by
      intro h0
      rw [h0] at hgl
      simp at hgl
    have h1 : 1 ≤ m.pose_segments.length := List.length_pos.mpr hne
    simp only [List.length_append, List.length_dropLast, List.length_cons,
      List.length_nil]
    omega
  · intro m lab t hno
    rw [ingest_append_case m lab t hno]
    show (if MAX_POSE_BUFFER_LEN < (appendedSegs m lab t).length then
        sliceLast MAX_POSE_BUFFER_LEN (appendedSegs m lab t)
      else appendedSegs m lab t).getLast? =
        some { label := lab, start_time := t, end_time := t }
    split
    · rw [sliceLast_getLast? (by decide)]
      unfold appendedSegs
      simp
    · unfold appendedSegs
      simp

/-- Witness for C5 at concrete one-segment memories. -/
theorem no_adjacent_duplicate_labels_witness :
    List.Chain' (fun a b => a.label ≠ b.label)
      (ingest_pose_label
        { pose_segments := [{ label := "sitting", start_time := 0, end_time := 1 }] }
        "standing" 2).pose_segments ∧
    (ingest_pose_label
        { pose_segments := [{ label := "sitting", start_time := 0, end_time := 1 }] }
        "standing" 2).pose_segments.getLast? =
      some { label := "standing", start_time := 2, end_time := 2 } ∧
    (ingest_pose_label
        { pose_segments := [{ label := "sitting", start_time := 0, end_time := 1 }] }
        "sitting" 5).pose_segments =
      [{ label := "sitting", start_time := 0, end_time := 1 }].dropLast ++
        [PoseStatement.extend_to { label := "sitting", start_time := 0, end_time := 1 } 5] := by
  refine ⟨?_, ?_, ?_⟩
  · exact no_adjacent_duplicate_labels.1 _ "standing" 2 (by simp)
  · exact no_adjacent_duplicate_labels.2.2 _ "standing" 2 (by
      intro last hl
      simp only [List.getLast?_singleton, Option.mem_some_iff] at hl
      subst hl
      decide)
  · exact (no_adjacent_duplicate_labels.2.1
      { pose_segments := [{ label := "sitting", start_time := 0, end_time := 1 }] }
      "sitting" 5 { label := "sitting", start_time := 0, end_time := 1 } rfl rfl).1

/-- One append step commutes with keeping only the last `n` elements. -/
theorem sliceLast_step {α : Type} {n : Nat} (hn : 2 ≤ n) (L : List α) (x : α) :
    (if n < (sliceLast n L ++ [x]).length then sliceLast n (sliceLast n L ++ [x])
     else sliceLast n L ++ [x]) = sliceLast n (L ++ [x]) := by
  have hlen : (sliceLast n L).length = min n L.length := sliceLast_length (by omega) L
  by_cases hc : L.length < n
  · have hself : sliceLast n L = L := sliceLast_eq_self (by omega)
    rw [hself]
    by_cases hc2 : n < (L ++ [x]).length
    · rw [if_pos hc2]
    · rw [if_neg hc2, sliceLast_eq_self (by simp at hc2 ⊢; omega)]
  · have hlen2 : (sliceLast n L ++ [x]).length = n + 1 := by
      rw [List.length_append, hlen]
      simp
      omega
    rw [if_pos (by omega), sliceLast_append_singleton hn _ x,
      sliceLast_sliceLast (by omega) (by omega), ← sliceLast_append_singleton hn L x]

/-- `ingest_pose_label` never grows the buffer beyond the configured bound. -/
theorem ingest_length_le (m : EpisodeMemory) (lab : String) (t : ℚ)
    (h : m.pose_segments.length ≤ MAX_POSE_BUFFER_LEN) :
    (ingest_pose_label m lab t).pose_segments.length ≤ MAX_POSE_BUFFER_LEN := by
  by_cases hmerge : ∃ last, m.pose_segments.getLast? = some last ∧ last.label = lab
  · obtain ⟨last, hgl, hlab⟩ := hmerge
    rw [ingest_merge_case m lab t last hgl hlab]
    have hne : m.pose_segments ≠ [] := by
      intro h0
      rw [h0] at hgl
      simp at hgl
    have h1 : 1 ≤ m.pose_segments.length := List.length_pos.mpr hne
    simp only [List.length_append, List.length_dropLast, List.length_cons,
      List.length_nil]
    omega
  · have hno : ∀ last ∈ m.pose_segments.getLast?, last.label ≠ lab := by
      intro last hl hc
      exact hmerge ⟨last, hl, hc⟩
    rw [ingest_append_case m lab t hno]
    show (if MAX_POSE_BUFFER_LEN < (appendedSegs m lab t).length then
        sliceLast MAX_POSE_BUFFER_LEN (appendedSegs m lab t)
      else appendedSegs m lab t).length ≤ MAX_POSE_BUFFER_LEN
    split
    · rw [sliceLast_length (by decide)]
      omega
    · rename_i hc
      omega

/-- Distinct-label streams fill the buffer exactly with the most recent
segments: the generalized induction step. -/
theorem ingestAll_distinct_aux (ticks : List (String × ℚ)) :
    ∀ (fed : List (String × ℚ)) (ras : List ActionInstance) (ets : List String),
      fed ≠ [] →
      List.Chain' (fun a b => a.1 ≠ b.1) (fed ++ ticks) →
      (ingestAll
          { pose_segments := sliceLast MAX_POSE_BUFFER_LEN (fed.map mkSeg),
            recognized_actions := ras, executed_tasks := ets }
          ticks).pose_segments =
        sliceLast MAX_POSE_BUFFER_LEN ((fed ++ ticks).map mkSeg) := by
  induction ticks with
  | nil =>
    intro fed ras ets _ _
    simp [ingestAll]
  | cons tk rest ih =>
    intro fed ras ets hfed hchain
    set flast := fed.getLast hfed with hflast_def
    have hflast : fed.getLast? = some flast := List.getLast?_eq_getLast fed hfed
    have hadj : flast.1 ≠ tk.1 := by
      rcases List.chain'_append.mp hchain with ⟨_, _, h3⟩
      exact h3 flast (by rw [hflast]; exact Option.mem_some_self flast) tk (by simp)
    have hm : ingest_pose_label
        { pose_segments := sliceLast MAX_POSE_BUFFER_LEN (fed.map mkSeg),
          recognized_actions := ras, executed_tasks := ets } tk.1 tk.2 =
        { pose_segments := sliceLast MAX_POSE_BUFFER_LEN ((fed ++ [tk]).map mkSeg),
          recognized_actions := ras, executed_tasks := ets } := by
      have hno : ∀ last ∈ (sliceLast MAX_POSE_BUFFER_LEN (fed.map mkSeg)).getLast?,
          last.label ≠ tk.1 := by
        intro last hl
        rw [sliceLast_getLast? (by decide), List.getLast?_map, hflast] at hl
        simp at hl
        subst hl
        exact hadj
      rw [ingest_append_case _ tk.1 tk.2 hno]
      have happ : appendedSegs
          { pose_segments := sliceLast MAX_POSE_BUFFER_LEN (fed.map mkSeg),
            recognized_actions := ras, executed_tasks := ets } tk.1 tk.2 =
          sliceLast MAX_POSE_BUFFER_LEN (fed.map mkSeg) ++ [mkSeg tk] := rfl
      rw [happ]
      have := sliceLast_step (n := MAX_POSE_BUFFER_LEN) (by decide) (fed.map mkSeg) (mkSeg tk)
      congr 1
      rw [this]
      congr 1
      simp
    show (ingestAll _ (tk :: rest)).pose_segments = _
    have hstep : ingestAll
        { pose_segments := sliceLast MAX_POSE_BUFFER_LEN (fed.map mkSeg),
          recognized_actions := ras, executed_tasks := ets } (tk :: rest) =
        ingestAll
          { pose_segments := sliceLast MAX_POSE_BUFFER_LEN ((fed ++ [tk]).map mkSeg),
            recognized_actions := ras, executed_tasks := ets } rest := by
      unfold ingestAll
      rw [List.foldl_cons, hm]
    rw [hstep, ih (fed ++ [tk]) ras ets (by simp)
      (by rw [List.append_assoc]; simpa using hchain)]
    congr 1
    rw [List.append_assoc]
    simp

/-- The buffer bound is preserved along any tick stream. -/
theorem ingestAll_length_le (ticks : List (String × ℚ)) :
    ∀ m : EpisodeMemory, m.pose_segments.length ≤ MAX_POSE_BUFFER_LEN →
      (ingestAll m ticks).pose_segments.length ≤ MAX_POSE_BUFFER_LEN := by
  induction ticks with
  | nil =>
    intro m h
    exact h
  | cons tk rest ih =>
    intro m h
    exact ih (ingest_pose_label m tk.1 tk.2) (ingest_length_le m tk.1 tk.2 h)

/-- C4: the segment buffer never exceeds `MAX_POSE_BUFFER_LEN`, and after
more than `MAX_POSE_BUFFER_LEN` distinct (non-merging) segments it holds
exactly the most recent ones in arrival order. -/
theorem pose_buffer_bound :
    (∀ (m : EpisodeMemory) (lab : String) (t : ℚ),
       m.pose_segments.length ≤ MAX_POSE_BUFFER_LEN →
       (ingest_pose_label m lab t).pose_segments.length ≤ MAX_POSE_BUFFER_LEN) ∧
    (∀ ticks : List (String × ℚ),
       (ingestAll {} ticks).pose_segments.length ≤ MAX_POSE_BUFFER_LEN) ∧
    (∀ ticks : List (String × ℚ),
       List.Chain' (fun a b => a.1 ≠ b.1) ticks →
       MAX_POSE_BUFFER_LEN < ticks.length →
       (ingestAll {} ticks).pose_segments =
         sliceLast MAX_POSE_BUFFER_LEN (ticks.map mkSeg) ∧
       (ingestAll {} ticks).pose_segments.length = MAX_POSE_BUFFER_LEN) := by
  refine ⟨ingest_length_le, ?_, ?_⟩
  · intro ticks
    exact ingestAll_length_le ticks {} (by simp)
  · intro ticks hchain hlong
    rcases ticks with _ | ⟨tk, rest⟩
    · simp at hlong
    · have h1 : ingest_pose_label {} tk.1 tk.2 =
          { pose_segments := [mkSeg tk], recognized_actions := [],
            executed_tasks := [] } := rfl
      have h2 : ingestAll {} (tk :: rest) =
          ingestAll
            { pose_segments := [mkSeg tk], recognized_actions := [],
              executed_tasks := [] } rest := by
        unfold ingestAll
        rw [List.foldl_cons, h1]
      have h3 : ([mkSeg tk] : List PoseStatement) =
          sliceLast MAX_POSE_BUFFER_LEN ([tk].map mkSeg) := by
        rw [sliceLast_eq_self (by simp [MAX_POSE_BUFFER_LEN])]
        simp
      have h4 : (ingestAll {} (tk :: rest)).pose_segments =
          sliceLast MAX_POSE_BUFFER_LEN ((tk :: rest).map mkSeg) := by
        rw [h2]
        have := ingestAll_distinct_aux rest [tk] [] [] (by simp)
          (by simpa using hchain)
        rw [h3]
        simpa using this
      refine ⟨h4, ?_⟩
      rw [h4, sliceLast_length (by decide)]
      simp only [List.length_map]
      simp only [List.length_cons] at hlong ⊢
      omega

theorem adjacentDistinctAux_chain' :
    ∀ (a : String × ℚ) (l : List (String × ℚ)), adjacentDistinctAux a l = true →
      List.Chain' (fun a b : String × ℚ => a.1 ≠ b.1) (a :: l)
  | _, [], _ => List.chain'_singleton _
  | a, b :: rest, h => by
    unfold adjacentDistinctAux at h
    rw [Bool.and_eq_true, decide_eq_true_eq] at h
    exact List.chain'_cons.mpr ⟨h.1, adjacentDistinctAux_chain' b rest h.2⟩

theorem adjacentDistinct_chain' (l : List (String × ℚ))
    (h : adjacentDistinct l = true) :
    List.Chain' (fun a b : String × ℚ => a.1 ≠ b.1) l := by
  rcases l with _ | ⟨a, rest⟩
  · exact List.chain'_nil
  · exact adjacentDistinctAux_chain' a rest h

/-- Witness for C4: 51 alternating-label ticks leave exactly the most recent
50 segments in the buffer. -/
theorem pose_buffer_bound_witness :
    (ingestAll {} wTicks).pose_segments =
      sliceLast MAX_POSE_BUFFER_LEN (wTicks.map mkSeg) ∧
    (ingestAll {} wTicks).pose_segments.length = MAX_POSE_BUFFER_LEN ∧
    (ingestAll {} [("a", (0 : ℚ))]).pose_segments.length ≤ MAX_POSE_BUFFER_LEN := by
  have hchain := adjacentDistinct_chain' wTicks (by decide)
  refine ⟨?_, ?_, ?_⟩
  · exact (pose_buffer_bound.2.2 wTicks hchain (by decide)).1
  · exact (pose_buffer_bound.2.2 wTicks hchain (by decide)).2
  · exact pose_buffer_bound.2.1 [("a", (0 : ℚ))]

/-- `cancel_pretask` with `join = True` always leaves no thread behind and
touches nothing else. -/
theorem cancel_pretask_join (s : CoordState) :
    (cancel_pretask s true).pretask_thread = none ∧
    (cancel_pretask s true).current_prepared_family_id =
      s.current_prepared_family_id ∧
    (cancel_pretask s true).executed_tasks = s.executed_tasks ∧
    (cancel_pretask s true).robot_steps = s.robot_steps ∧
    (cancel_pretask s true).started_pretasks = s.started_pretasks := by
  cases hth : s.pretask_thread with
  | none => simp [cancel_pretask, hth]
  | some th =>
    cases hal : th.alive with
    | true => simp [cancel_pretask, hth, hal]
    | false => simp [cancel_pretask, hth, hal]

/-- `cancel_pretask` followed by `clear_preparation` resolves to an explicit
state. -/
theorem clear_after_cancel (s : CoordState) :
    clear_preparation (cancel_pretask s true) =
      { current_prepared_family_id := none, pretask_thread := none,
        executed_tasks := s.executed_tasks, robot_steps := s.robot_steps,
        started_pretasks := s.started_pretasks } := by
  obtain ⟨hth, hfam, hexec, hrobot, hstart⟩ := cancel_pretask_join s
  unfold clear_preparation
  cases hcp : cancel_pretask s true with
  | mk a b c d e =>
    rw [hcp] at hth hexec hrobot hstart
    simp only at hth hexec hrobot hstart
    rw [hth, hexec, hrobot, hstart]

/-- C2: `dispatch` first cancels-and-joins any in-flight preparation and
clears the prepared-family marker; it raises a fatal error (executing no task
and appending nothing) exactly when the action name is missing from
`ACTION_TO_TASK`, and otherwise runs the mapped task's full step sequence
synchronously, records the task name, and returns it. -/
theorem dispatch_spec :
    ∀ (tasks : List (String × TaskDefinition)) (s : CoordState)
      (inst : ActionInstance),
      (ACTION_TO_TASK.all fun p => (dictGet tasks p.2).isSome) = true →
      (dispatch tasks s inst).1.current_prepared_family_id = none ∧
      (dispatch tasks s inst).1.pretask_thread = none ∧
      (dispatch tasks s inst).1.started_pretasks = s.started_pretasks ∧
      (dictGet ACTION_TO_TASK inst.name = none →
        (dispatch tasks s inst).2 =
          .error ("No task mapping for action: " ++ inst.name) ∧
        (dispatch tasks s inst).1.robot_steps = s.robot_steps ∧
        (dispatch tasks s inst).1.executed_tasks = s.executed_tasks) ∧
      (∀ task_name, dictGet ACTION_TO_TASK inst.name = some task_name →
        ∃ task_def, dictGet tasks task_name = some task_def ∧
          (dispatch tasks s inst).2 = .ok task_name ∧
          (dispatch tasks s inst).1.robot_steps =
            s.robot_steps ++ task_def.steps.map BehaviorStep.name ∧
          (dispatch tasks s inst).1.executed_tasks =
            s.executed_tasks ++ [task_name]) := by
  intro tasks s inst hall
  rcases hcase : dictGet ACTION_TO_TASK inst.name with _ | task_name
  · have hd : dispatch tasks s inst =
        ({ current_prepared_family_id := none, pretask_thread := none,
           executed_tasks := s.executed_tasks, robot_steps := s.robot_steps,
           started_pretasks := s.started_pretasks },
         .error ("No task mapping for action: " ++ inst.name)) := by
      unfold dispatch
      rw [clear_after_cancel, hcase]
    rw [hd]
    refine ⟨rfl, rfl, rfl, fun _ => ⟨rfl, rfl, rfl⟩, ?_⟩
    intro tn htn
    simp at htn
  · have hmem : (inst.name, task_name) ∈ ACTION_TO_TASK := dictGet_mem hcase
    have hsome : (dictGet tasks task_name).isSome :=
      List.all_eq_true.mp hall ⟨inst.name, task_name⟩ hmem
    obtain ⟨task_def, htdef⟩ := Option.isSome_iff_exists.mp hsome
    have hd : dispatch tasks s inst =
        ({ current_prepared_family_id := none, pretask_thread := none,
           executed_tasks := s.executed_tasks ++ [task_name],
           robot_steps := s.robot_steps ++ task_def.steps.map BehaviorStep.name,
           started_pretasks := s.started_pretasks },
         .ok task_name) := by
      unfold dispatch
      rw [clear_after_cancel, hcase]
      simp [htdef, execute_task_sync]
    rw [hd]
    refine ⟨rfl, rfl, rfl, ?_, ?_⟩
    · intro hc
      simp at hc
    · intro tn htn
      injection htn with htn
      subst htn
      exact ⟨task_def, htdef, rfl, rfl, rfl⟩

/-- Witness for C2 at the configured tasks and a concrete recognized
action. -/
theorem dispatch_spec_witness :
    ∃ task_def,
      dictGet ariannaTasks "localise_and_deliver_book" = some task_def ∧
      (dispatch ariannaTasks {}
        { name := "requesting_for_a_book", matched_sequence := [],
          end_time := 0 }).2 = .ok "localise_and_deliver_book" ∧
      (dispatch ariannaTasks {}
        { name := "requesting_for_a_book", matched_sequence := [],
          end_time := 0 }).1.robot_steps =
        ([] : List String) ++ task_def.steps.map BehaviorStep.name ∧
      (dispatch ariannaTasks {}
        { name := "requesting_for_a_book", matched_sequence := [],
          end_time := 0 }).1.executed_tasks =
        ([] : List String) ++ ["localise_and_deliver_book"] := by
  exact (dispatch_spec ariannaTasks {}
    { name := "requesting_for_a_book", matched_sequence := [], end_time := 0 }
    (by decide)).2.2.2.2 "localise_and_deliver_book" (by decide)

/-- `cancel_pretask` with `join = True` as an explicit state. -/
theorem cancel_pretask_resolved (s : CoordState) :
    cancel_pretask s true =
      { current_prepared_family_id := s.current_prepared_family_id,
        pretask_thread := none, executed_tasks := s.executed_tasks,
        robot_steps := s.robot_steps, started_pretasks := s.started_pretasks } := by
  obtain ⟨hth, hfam, hexec, hrobot, hstart⟩ := cancel_pretask_join s
  cases hcp : cancel_pretask s true with
  | mk a b c d e =>
    rw [hcp] at hth hfam hexec hrobot hstart
    simp only at hth hfam hexec hrobot hstart
    rw [hth, hfam, hexec, hrobot, hstart]

/-- C7 (amended): `prepare_family` is a no-op when the family has no pretask,
and a no-op whenever the prepared-family marker already names this family —
even if that preparation has already finished (the code returns in both the
thread-alive and thread-dead sub-cases); otherwise it cancels-and-joins any
running preparation and, when the pretask name resolves, starts exactly one
fresh background routine for it. -/
theorem prepare_family_spec :
    (∀ (pretasks : List (String × TaskDefinition)) (s : CoordState)
       (family : ActionFamily), family.pre_task = none →
       prepare_family pretasks s family = s) ∧
    (∀ (pretasks : List (String × TaskDefinition)) (s : CoordState)
       (family : ActionFamily),
       s.current_prepared_family_id = some family.family_id →
       prepare_family pretasks s family = s) ∧
    (∀ (pretasks : List (String × TaskDefinition)) (s : CoordState)
       (family : ActionFamily) (pn : String) (task_def : TaskDefinition),
       family.pre_task = some pn →
       s.current_prepared_family_id ≠ some family.family_id →
       dictGet pretasks pn = some task_def →
       prepare_family pretasks s family =
         { current_prepared_family_id := some family.family_id,
           pretask_thread := some { alive := true, stop_set := false },
           executed_tasks := s.executed_tasks, robot_steps := s.robot_steps,
           started_pretasks := s.started_pretasks ++ [pn] }) ∧
    (∀ s : CoordState, (cancel_pretask s true).pretask_thread = none) := by
  refine ⟨?_, ?_, ?_, ?_⟩
  · intro pretasks s family h
    unfold prepare_family
    rw [h]
  · intro pretasks s family h
    rcases hpt : family.pre_task with _ | pn
    · unfold prepare_family
      rw [hpt]
    · unfold prepare_family
      rw [hpt]
      simp only [if_pos h]
  · intro pretasks s family pn task_def hpt h htdef
    unfold prepare_family
    rw [hpt]
    simp only [if_neg h]
    rw [cancel_pretask_resolved, htdef]
  · intro s
    exact (cancel_pretask_join s).1

/-- Counterexample to C7 as stated: the marker names this family but no
preparation is running (`pretask_thread = none`), so by the claim a new
background routine should be started; the code does nothing. -/
theorem prepare_family_counterexample :
    famStandPick.pre_task = some "pretask_scan_floor_area" ∧
    prevPreparedState.current_prepared_family_id = some famStandPick.family_id ∧
    prevPreparedState.pretask_thread = none ∧
    prepare_family ariannaPretasks prevPreparedState famStandPick =
      prevPreparedState ∧
    (prepare_family ariannaPretasks prevPreparedState famStandPick).started_pretasks = [] ∧
    (prepare_family ariannaPretasks prevPreparedState famStandPick).pretask_thread = none := by
  refine ⟨rfl, rfl, rfl, ?_, ?_, ?_⟩ <;> rfl

/-- Witness for C7 at concrete coordinator states. -/
theorem prepare_family_spec_witness :
    prepare_family ariannaPretasks {} famSitStandWalk =
      { current_prepared_family_id := some "F_sitting_standing_walking",
        pretask_thread := some { alive := true, stop_set := false },
        executed_tasks := [], robot_steps := [],
        started_pretasks := ["pretask_observe_and_scan"] } ∧
    prepare_family ariannaPretasks prevPreparedState
      { family_id := "F_x", pref := [], members := [], pre_task := none } =
      prevPreparedState ∧
    prepare_family ariannaPretasks prevPreparedState famStandPick =
      prevPreparedState := by
  refine ⟨?_, ?_, ?_⟩
  · exact prepare_family_spec.2.2.1 ariannaPretasks {} famSitStandWalk
      "pretask_observe_and_scan"
      { name := "pretask_observe_and_scan",
        steps := [{ name := "face_human" }, { name := "move_to_observation_point" },
                  { name := "scan_environment" }] }
      rfl (by simp) (by decide)
  · exact prepare_family_spec.1 ariannaPretasks prevPreparedState _ rfl
  · exact prepare_family_spec.2.1 ariannaPretasks prevPreparedState famStandPick rfl

theorem zip_get?_eq {α β : Type} :
    ∀ (l1 : List α) (l2 : List β) (i : Nat) (x : α × β),
      (l1.zip l2).get? i = some x →
      l1.get? i = some x.1 ∧ l2.get? i = some x.2 := by
  intro l1
  induction l1 with
  | nil =>
    intro l2 i x h
    simp [List.zip] at h
  | cons a l1 ih =>
    intro l2 i x h
    rcases l2 with _ | ⟨b, l2⟩
    · simp [List.zip] at h
    · rcases i with _ | i
      · rw [List.zip_cons_cons, List.get?_cons_zero, Option.some_inj] at h
        subst h
        exact ⟨rfl, rfl⟩
      · rw [List.zip_cons_cons, List.get?_cons_succ] at h
        exact ih l2 i x h

/-- Unfolding `convertSeqs` when the constraint rows are exhausted. -/
theorem convertSeqs_cons_none (action_name : String)
    (raw : List (List (Option RawStepConstraint))) (start : Nat)
    (sq : List String) (rest : List (List String))
    (h : raw.get? start = none) :
    convertSeqs action_name raw start (sq :: rest) =
      (convertSeqs action_name raw (start + 1) rest).map (fun tl => none :: tl) := by
  conv_lhs => unfold convertSeqs
  rw [h]

/-- Unfolding `convertSeqs` on a mismatched constraint row. -/
theorem convertSeqs_cons_mismatch (action_name : String)
    (raw : List (List (Option RawStepConstraint))) (start : Nat)
    (sq : List String) (rest : List (List String))
    (rs : List (Option RawStepConstraint)) (h : raw.get? start = some rs)
    (hlen : rs.length ≠ sq.length) :
    convertSeqs action_name raw start (sq :: rest) =
      .error ("Constraint length mismatch for " ++ action_name) := by
  conv_lhs => unfold convertSeqs
  rw [h]
  show (if rs.length ≠ sq.length then
      Except.error ("Constraint length mismatch for " ++ action_name)
    else (convertSeqs action_name raw (start + 1) rest).map
      (fun tl => some (convertSeqConstraints sq rs) :: tl)) = _
  exact if_pos hlen

/-- Unfolding `convertSeqs` on a well-sized constraint row. -/
theorem convertSeqs_cons_ok (action_name : String)
    (raw : List (List (Option RawStepConstraint))) (start : Nat)
    (sq : List String) (rest : List (List String))
    (rs : List (Option RawStepConstraint)) (h : raw.get? start = some rs)
    (hlen : ¬rs.length ≠ sq.length) :
    convertSeqs action_name raw start (sq :: rest) =
      (convertSeqs action_name raw (start + 1) rest).map
        (fun tl => some (convertSeqConstraints sq rs) :: tl) := by
  conv_lhs => unfold convertSeqs
  rw [h]
  show (if rs.length ≠ sq.length then
      Except.error ("Constraint length mismatch for " ++ action_name)
    else (convertSeqs action_name raw (start + 1) rest).map
      (fun tl => some (convertSeqConstraints sq rs) :: tl)) = _
  exact if_neg hlen

/-- A mismatched constraint row makes `convertSeqs` abort. -/
theorem convertSeqs_error (action_name : String)
    (raw : List (List (Option RawStepConstraint))) :
    ∀ (seqs : List (List String)) (start i : Nat) (seq : List String)
      (raw_seq : List (Option RawStepConstraint)),
      seqs.get? i = some seq → raw.get? (start + i) = some raw_seq →
      raw_seq.length ≠ seq.length →
      ∃ msg, convertSeqs action_name raw start seqs = .error msg := by
  intro seqs
  induction seqs with
  | nil =>
    intro start i seq raw_seq hseq _ _
    simp at hseq
  | cons sq rest ih =>
    intro start i seq raw_seq hseq hraw hne
    rcases i with _ | i
    · rw [List.get?_cons_zero, Option.some_inj] at hseq
      rw [Nat.add_zero] at hraw
      refine ⟨"Constraint length mismatch for " ++ action_name,
        convertSeqs_cons_mismatch action_name raw start sq rest raw_seq hraw ?_⟩
      rw [hseq]
      exact hne
    · rw [List.get?_cons_succ] at hseq
      have hraw2 : raw.get? (start + 1 + i) = some raw_seq := by
        rw [show start + 1 + i = start + (i + 1) by omega]
        exact hraw
      obtain ⟨msg, hmsg⟩ := ih (start + 1) i seq raw_seq hseq hraw2 hne
      rcases hr : raw.get? start with _ | rs
      · exact ⟨msg, by
          rw [convertSeqs_cons_none action_name raw start sq rest hr, hmsg]
          rfl⟩
      · by_cases hlen : rs.length ≠ sq.length
        · exact ⟨"Constraint length mismatch for " ++ action_name,
            convertSeqs_cons_mismatch action_name raw start sq rest rs hr hlen⟩
        · exact ⟨msg, by
            rw [convertSeqs_cons_ok action_name raw start sq rest rs hr hlen, hmsg]
            rfl⟩

/-- A successful `convertSeqs` aligns every built constraint with its
template position and pose. -/
theorem convertSeqs_ok (action_name : String)
    (raw : List (List (Option RawStepConstraint))) :
    ∀ (seqs : List (List String)) (start : Nat)
      (out : List (Option (List StepConstraint))),
      convertSeqs action_name raw start seqs = .ok out →
      ∀ i cs, out.get? i = some (some cs) →
        ∃ seq, seqs.get? i = some seq ∧ cs.length = seq.length ∧
          ∀ j c pose, cs.get? j = some c → seq.get? j = some pose →
            c.pose = pose := by
  intro seqs
  induction seqs with
  | nil =>
    intro start out hout i cs hcs
    unfold convertSeqs at hout
    injection hout with hout
    subst hout
    simp at hcs
  | cons sq rest ih =>
    intro start out hout i cs hcs
    rcases hr : raw.get? start with _ | rs
    · rw [convertSeqs_cons_none action_name raw start sq rest hr] at hout
      rcases hrec : convertSeqs action_name raw (start + 1) rest with e | tl
      · rw [hrec] at hout
        exact absurd hout (by simp [Except.map])
      · rw [hrec] at hout
        have hout2 : out = none :: tl := by
          injection hout with h2
          exact h2.symm
        subst hout2
        rcases i with _ | i
        · simp at hcs
        · rw [List.get?_cons_succ] at hcs
          obtain ⟨seq, hseq, hrest⟩ := ih (start + 1) tl hrec i cs hcs
          exact ⟨seq, by rw [List.get?_cons_succ]; exact hseq, hrest⟩
    · by_cases hlen : rs.length ≠ sq.length
      · rw [convertSeqs_cons_mismatch action_name raw start sq rest rs hr hlen] at hout
        exact absurd hout (by simp)
      · rw [convertSeqs_cons_ok action_name raw start sq rest rs hr hlen] at hout
        rw [not_ne_iff] at hlen
        rcases hrec : convertSeqs action_name raw (start + 1) rest with e | tl
        · rw [hrec] at hout
          exact absurd hout (by simp [Except.map])
        · rw [hrec] at hout
          have hout2 : out = some (convertSeqConstraints sq rs) :: tl := by
            injection hout with h2
            exact h2.symm
          subst hout2
          rcases i with _ | i
          · rw [List.get?_cons_zero, Option.some_inj, Option.some_inj] at hcs
            subst hcs
            refine ⟨sq, rfl, ?_, ?_⟩
            · unfold convertSeqConstraints
              rw [List.length_map, List.length_zip, hlen, Nat.min_self]
            · intro j c pose hc hpose
              unfold convertSeqConstraints at hc
              rw [List.get?_map] at hc
              rcases hz : (sq.zip rs).get? j with _ | pc
              · rw [hz] at hc
                simp at hc
              · rw [hz] at hc
                obtain ⟨hz1, _⟩ := zip_get?_eq sq rs j pc hz
                rw [hpose] at hz1
                injection hz1 with hz1
                injection hc with hc
                rw [← hc]
                exact hz1.symm
          · rw [List.get?_cons_succ] at hcs
            obtain ⟨seq, hseq, hrest⟩ := ih (start + 1) tl hrec i cs hcs
            exact ⟨seq, by rw [List.get?_cons_succ]; exact hseq, hrest⟩

theorem build_defs_cons (action_name : String) (sequences : List (List String))
    (rest : List (String × List (List String)))
    (scd : Option (List (String × List (List (Option RawStepConstraint))))) :
    build_action_definitions ((action_name, sequences) :: rest) scd =
      match scsOf scd action_name sequences with
      | .error e => .error e
      | .ok sc =>
        match build_action_definitions rest scd with
        | .error e => .error e
        | .ok tl =>
          .ok ((action_name,
            { name := action_name, sequences := sequences,
              step_constraints := sc, action_constraint := none }) :: tl) := rfl

/-- A mismatched supplied constraint row anywhere in the configuration makes
the whole build abort. -/
theorem build_action_definitions_error :
    ∀ (d : List (String × List (List String)))
      (scd : List (String × List (List (Option RawStepConstraint))))
      (nm : String) (seqs : List (List String))
      (raw : List (List (Option RawStepConstraint))) (i : Nat)
      (seq : List String) (raw_seq : List (Option RawStepConstraint)),
      (d.map Prod.fst).Nodup → (nm, seqs) ∈ d → dictGet scd nm = some raw →
      seqs.get? i = some seq → raw.get? i = some raw_seq →
      raw_seq.length ≠ seq.length →
      ∃ msg, build_action_definitions d (some scd) = .error msg := by
  intro d
  induction d with
  | nil =>
    intro scd nm seqs raw i seq raw_seq _ hmem _ _ _ _
    simp at hmem
  | cons p rest ih =>
    intro scd nm seqs raw i seq raw_seq hnd hmem hscd hseq hraw hne
    rcases p with ⟨nm', seqs'⟩
    rw [List.map_cons, List.nodup_cons] at hnd
    by_cases hnm : nm' = nm
    · subst hnm
      have hseqs : seqs' = seqs := by
        rcases List.mem_cons.mp hmem with heq | hmem'
        · rw [Prod.mk.injEq] at heq
          exact heq.2.symm
        · exact absurd (List.mem_map.mpr ⟨(nm', seqs), hmem', rfl⟩) hnd.1
      subst hseqs
      obtain ⟨msg, hmsg⟩ :=
        convertSeqs_error nm' raw seqs' 0 i seq raw_seq hseq
          (by rw [Nat.zero_add]; exact hraw) hne
      have hrcf : rawConstraintsFor (some scd) nm' = some raw := hscd
      have hscs : scsOf (some scd) nm' seqs' = .error msg := by
        unfold scsOf
        rw [hrcf]
        show Except.map some (convertSeqs nm' raw 0 seqs') = Except.error msg
        rw [hmsg]
        rfl
      exact ⟨msg, by rw [build_defs_cons, hscs]⟩
    · have hmem' : (nm, seqs) ∈ rest := by
        rcases List.mem_cons.mp hmem with heq | hmem'
        · rw [Prod.mk.injEq] at heq
          exact absurd heq.1.symm hnm
        · exact hmem'
      obtain ⟨msg, hmsg⟩ := ih scd nm seqs raw i seq raw_seq hnd.2 hmem' hscd hseq hraw hne
      rcases hscs : scsOf (some scd) nm' seqs' with e | sc
      · exact ⟨e, by rw [build_defs_cons, hscs]⟩
      · exact ⟨msg, by rw [build_defs_cons, hscs, hmsg]⟩

/-- Every successfully built action definition has its constraints aligned
with the template: same length and matching poses. -/
theorem build_action_definitions_ok :
    ∀ (d : List (String × List (List String)))
      (scd : Option (List (String × List (List (Option RawStepConstraint)))))
      (out : List (String × ActionDefinition)),
      build_action_definitions d scd = .ok out →
      ∀ p ∈ out, ∀ scl, p.2.step_constraints = some scl →
        ∀ i cs, scl.get? i = some (some cs) →
          ∃ seq, p.2.sequences.get? i = some seq ∧ cs.length = seq.length ∧
            ∀ j c pose, cs.get? j = some c → seq.get? j = some pose →
              c.pose = pose := by
  intro d
  induction d with
  | nil =>
    intro scd out hout p hp
    unfold build_action_definitions at hout
    injection hout with hout
    subst hout
    simp at hp
  | cons q rest ih =>
    intro scd out hout p hp scl hscl i cs hcs
    rcases q with ⟨nm', seqs'⟩
    rw [build_defs_cons] at hout
    rcases hscs : scsOf scd nm' seqs' with e | sc
    · rw [hscs] at hout
      exact absurd hout (by simp)
    · rw [hscs] at hout
      rcases hrest : build_action_definitions rest scd with e | tl
      · rw [hrest] at hout
        exact absurd hout (by simp)
      · rw [hrest] at hout
        injection hout with hout
        subst hout
        rcases List.mem_cons.mp hp with heq | hmem
        · subst heq
          simp only at hscl
          rcases hraw : rawConstraintsFor scd nm' with _ | raw
          · unfold scsOf at hscs
            rw [hraw] at hscs
            injection hscs with hscs
            rw [← hscs] at hscl
            simp at hscl
          · unfold scsOf at hscs
            rw [hraw] at hscs
            have hscs2 : Except.map some (convertSeqs nm' raw 0 seqs') =
                Except.ok sc := hscs
            rcases hcv : convertSeqs nm' raw 0 seqs' with e2 | l
            · rw [hcv] at hscs2
              exact absurd hscs2 (by simp [Except.map])
            · rw [hcv] at hscs2
              injection hscs2 with hscs2
              rw [← hscs2] at hscl
              injection hscl with hscl
              subst hscl
              exact convertSeqs_ok nm' raw seqs' 0 _ hcv i cs hcs
        · exact ih scd tl hrest p hmem scl hscl i cs hcs

/-- C8 (amended): a supplied step-constraint row whose length differs from its
template aborts `build_action_definitions` with an error, and every
successfully built constraint is aligned (same length, matching poses) with
its template; an unknown pretask name referenced by a family, however, is
non-fatal: `prepare_family` logs a warning, skips the preparation routine and
still marks the family prepared. -/
theorem config_error_handling :
    (∀ (d : List (String × List (List String)))
       (scd : List (String × List (List (Option RawStepConstraint))))
       (nm : String) (seqs : List (List String))
       (raw : List (List (Option RawStepConstraint))) (i : Nat)
       (seq : List String) (raw_seq : List (Option RawStepConstraint)),
       (d.map Prod.fst).Nodup → (nm, seqs) ∈ d → dictGet scd nm = some raw →
       seqs.get? i = some seq → raw.get? i = some raw_seq →
       raw_seq.length ≠ seq.length →
       ∃ msg, build_action_definitions d (some scd) = .error msg) ∧
    (∀ (d : List (String × List (List String)))
       (scd : Option (List (String × List (List (Option RawStepConstraint)))))
       (out : List (String × ActionDefinition)),
       build_action_definitions d scd = .ok out →
       ∀ p ∈ out, ∀ scl, p.2.step_constraints = some scl →
         ∀ i cs, scl.get? i = some (some cs) →
           ∃ seq, p.2.sequences.get? i = some seq ∧ cs.length = seq.length ∧
             ∀ j c pose, cs.get? j = some c → seq.get? j = some pose →
               c.pose = pose) ∧
    (∀ (pretasks : List (String × TaskDefinition)) (s : CoordState)
       (family : ActionFamily) (pn : String),
       family.pre_task = some pn → dictGet pretasks pn = none →
       s.current_prepared_family_id ≠ some family.family_id →
       prepare_family pretasks s family =
         { current_prepared_family_id := some family.family_id,
           pretask_thread := none, executed_tasks := s.executed_tasks,
           robot_steps := s.robot_steps,
           started_pretasks := s.started_pretasks }) := by
  refine ⟨build_action_definitions_error, build_action_definitions_ok, ?_⟩
  intro pretasks s family pn hpt hmiss h
  unfold prepare_family
  rw [hpt]
  simp only [if_neg h]
  rw [cancel_pretask_resolved, hmiss]

/-- Counterexample to C8 as stated: a family referencing an unknown pretask
does not abort the preparation. `prepare_family` returns normally, starts
nothing, and still marks the family prepared. -/
theorem config_error_handling_counterexample :
    dictGet ariannaPretasks "pretask_missing" = none ∧
    famBogusPretask.pre_task = some "pretask_missing" ∧
    prepare_family ariannaPretasks {} famBogusPretask =
      { current_prepared_family_id := some "F_walking_sitting",
        pretask_thread := none, executed_tasks := [], robot_steps := [],
        started_pretasks := [] } ∧
    (prepare_family ariannaPretasks {} famBogusPretask).started_pretasks = [] := by
  refine ⟨?_, rfl, ?_, ?_⟩ <;> rfl

/-- Witness for C8 at a concrete mismatched and a concrete well-formed
configuration. -/
theorem config_error_handling_witness :
    (∃ msg, build_action_definitions [("act", [["a", "b"]])]
        (some [("act", [[none]])]) = .error msg) ∧
    (∃ seq, ([["a"]] : List (List String)).get? 0 = some seq ∧
       ([({ pose := "a" } : StepConstraint)]).length = seq.length ∧
       ∀ j c pose, ([({ pose := "a" } : StepConstraint)]).get? j = some c →
         seq.get? j = some pose → StepConstraint.pose c = pose) ∧
    prepare_family ariannaPretasks {} famBogusPretask =
      { current_prepared_family_id := some famBogusPretask.family_id,
        pretask_thread := none, executed_tasks := [], robot_steps := [],
        started_pretasks := [] } := by
  refine ⟨?_, ?_, ?_⟩
  · exact config_error_handling.1 [("act", [["a", "b"]])] [("act", [[none]])]
      "act" [["a", "b"]] [[none]] 0 ["a", "b"] [none]
      (by decide) (by decide) rfl rfl rfl (by decide)
  · exact config_error_handling.2.1 [("act", [["a"]])] (some [("act", [[none]])])
      [("act", { name := "act", sequences := [["a"]],
                 step_constraints := some [some [{ pose := "a" }]],
                 action_constraint := none })]
      rfl
      ("act", { name := "act", sequences := [["a"]],
                step_constraints := some [some [{ pose := "a" }]],
                action_constraint := none })
      (by decide) [some [{ pose := "a" }]] rfl 0 [{ pose := "a" }] rfl
  · exact config_error_handling.2.2 ariannaPretasks {} famBogusPretask
      "pretask_missing" rfl rfl (by simp)

/-- `emitAll` only ever appends to the queue tail. -/
theorem emitAll_queue {σ π : Type} :
    ∀ (l : List (String × π × ℚ)) (s : Sched σ π),
      ∃ emitted, (Sched.emitAll s l).queue = s.queue ++ emitted := by
  intro l
  induction l with
  | nil =>
    intro s
    exact ⟨[], by simp [Sched.emitAll]⟩
  | cons x rest ih =>
    intro s
    rcases x with ⟨n, p, t⟩
    obtain ⟨e, he⟩ := ih (s.emit n p t)
    refine ⟨{ name := n, payload := p, t := t } :: e, ?_⟩
    show (Sched.emitAll (s.emit n p t) rest).queue = _
    rw [he]
    show (s.queue ++ [{ name := n, payload := p, t := t }]) ++ e = _
    rw [List.append_assoc]
    rfl

/-- Running the procedures of one event only appends to the queue tail. -/
theorem runProcs_queue {σ π : Type} :
    ∀ (ps : List (SProcedure σ π)) (s : Sched σ π) (ev : REvent π),
      ∃ emitted, (runProcs ev s ps).queue = s.queue ++ emitted := by
  intro ps
  induction ps with
  | nil =>
    intro s ev
    exact ⟨[], by simp [runProcs]⟩
  | cons proc rest ih =>
    intro s ev
    unfold runProcs
    by_cases hc : proc.can_run s.state ev
    · rw [if_pos hc]
      obtain ⟨e1, he1⟩ := emitAll_queue (proc.run s.state ev).2
        { s with state := (proc.run s.state ev).1 }
      obtain ⟨e2, he2⟩ := ih
        (Sched.emitAll { s with state := (proc.run s.state ev).1 }
          (proc.run s.state ev).2) ev
      refine ⟨e1 ++ e2, ?_⟩
      rw [he2, he1]
      show (s.queue ++ e1) ++ e2 = s.queue ++ (e1 ++ e2)
      rw [List.append_assoc]
    · rw [if_neg hc]
      exact ih s ev

/-- C3: `run_until_idle` pops events strictly FIFO, resolves one event fully
(all its registered, condition-satisfying procedures) before popping the
next, appends procedure emissions to the tail of the same queue, processes at
most `max_events` events and returns the number processed. -/
theorem run_until_idle_spec (σ π : Type) :
    (∀ (s : Sched σ π) (n : Nat), (run_until_idle s n).2 ≤ n) ∧
    (∀ (s : Sched σ π) (n : Nat), s.queue = [] → run_until_idle s n = (s, 0)) ∧
    (∀ s : Sched σ π, run_until_idle s 0 = (s, 0)) ∧
    (∀ (s : Sched σ π) (n : Nat) (ev : REvent π) (rest : List (REvent π)),
       s.queue = ev :: rest →
       run_until_idle s (n + 1) =
         ((run_until_idle (dispatchEvent { s with queue := rest } ev) n).1,
          (run_until_idle (dispatchEvent { s with queue := rest } ev) n).2 + 1)) ∧
    (∀ (s : Sched σ π) (ev : REvent π),
       ∃ emitted, (dispatchEvent s ev).queue = s.queue ++ emitted) := by
  refine ⟨?_, ?_, ?_, ?_, ?_⟩
  · intro s n
    induction n generalizing s with
    | zero => exact Nat.le_refl 0
    | succ n ih =>
      rcases hq : s.queue with _ | ⟨ev, rest⟩
      · simp only [run_until_idle, hq]
        exact Nat.zero_le _
      · simp only [run_until_idle, hq]
        exact Nat.succ_le_succ (ih _)
  · intro s n hq
    rcases n with _ | n
    · rfl
    · simp only [run_until_idle, hq]
  · intro s
    rfl
  · intro s n ev rest hq
    simp only [run_until_idle, hq]
  · intro s ev
    exact runProcs_queue _ s ev

/-- Witness for C3 at the concrete one-procedure scheduler. -/
theorem run_until_idle_spec_witness :
    (run_until_idle wSched 10).2 ≤ 10 ∧
    run_until_idle wSched (1 + 1) =
      ((run_until_idle (dispatchEvent { wSched with queue := [] } wEv) 1).1,
       (run_until_idle (dispatchEvent { wSched with queue := [] } wEv) 1).2 + 1) ∧
    (∃ emitted, (dispatchEvent wSched wEv).queue = wSched.queue ++ emitted) := by
  refine ⟨(run_until_idle_spec Nat Nat).1 wSched 10, ?_,
    (run_until_idle_spec Nat Nat).2.2.2.2 wSched wEv⟩
  exact (run_until_idle_spec Nat Nat).2.2.2.1 wSched 1 wEv [] rfl

theorem domFam_refl (r : ActionFamily) : domFam r r :=
  ⟨le_refl _, fun _ => le_refl _⟩

theorem domFam_trans {a b c : ActionFamily} (h1 : domFam a b) (h2 : domFam b c) :
    domFam a c := by
  refine ⟨le_trans h2.1 h1.1, ?_⟩
  intro heq
  have hb : b.pref.length = a.pref.length := le_antisymm h1.1 (heq ▸ h2.1)
  exact le_trans (h1.2 hb) (h2.2 (by omega))

theorem pickBetter_red (b f : ActionFamily) :
    pickBetter (some b) f =
      (if b.pref.length < f.pref.length then some f
       else if f.pref.length = b.pref.length ∧ f.family_id < b.family_id then
         some f
       else some b) := rfl

theorem pickBetter_some (b f : ActionFamily) :
    pickBetter (some b) f = some b ∨ pickBetter (some b) f = some f := by
  rw [pickBetter_red]
  split
  · exact Or.inr rfl
  · split
    · exact Or.inr rfl
    · exact Or.inl rfl

theorem pickBetter_dom (b f c : ActionFamily)
    (h : pickBetter (some b) f = some c) : domFam c b ∧ domFam c f := by
  rw [pickBetter_red] at h
  split at h
  · rename_i hlt
    rw [Option.some_inj] at h
    subst h
    exact ⟨⟨le_of_lt hlt, fun heq => absurd heq (ne_of_lt hlt)⟩,
      domFam_refl _⟩
  · rename_i hnlt
    split at h
    · rename_i htie
      rw [Option.some_inj] at h
      subst h
      exact ⟨⟨le_of_eq htie.1.symm, fun _ => le_of_lt htie.2⟩, domFam_refl _⟩
    · rename_i htie
      rw [Option.some_inj] at h
      subst h
      refine ⟨domFam_refl _, le_of_not_lt hnlt, ?_⟩
      intro heq
      exact le_of_not_lt (not_and.mp htie heq)

/-- A `pickBetter` fold never loses a candidate: it returns `none` only if it
started with `none` and saw nothing. -/
theorem foldl_pickBetter_none :
    ∀ (l : List ActionFamily) (acc : Option ActionFamily),
      l.foldl pickBetter acc = none → l = [] ∧ acc = none := by
  intro l
  induction l with
  | nil =>
    intro acc h
    exact ⟨rfl, h⟩
  | cons f rest ih =>
    intro acc h
    obtain ⟨_, h2⟩ := ih (pickBetter acc f) h
    rcases acc with _ | b
    · simp [pickBetter] at h2
    · rcases pickBetter_some b f with hc | hc <;> rw [hc] at h2 <;> simp at h2

/-- The result of a `pickBetter` fold comes from the accumulator or the list
and dominates everything it saw. -/
theorem foldl_pickBetter_some :
    ∀ (l : List ActionFamily) (acc : Option ActionFamily) (r : ActionFamily),
      l.foldl pickBetter acc = some r →
      (acc = some r ∨ r ∈ l) ∧ (∀ g ∈ l, domFam r g) ∧
      (∀ b, acc = some b → domFam r b) := by
  intro l
  induction l with
  | nil =>
    intro acc r h
    have hacc : acc = some r := h
    refine ⟨Or.inl hacc, by simp, ?_⟩
    intro b hb
    rw [hacc, Option.some_inj] at hb
    subst hb
    exact domFam_refl _
  | cons f rest ih =>
    intro acc r h
    obtain ⟨hsrc, hdom, hacc⟩ := ih (pickBetter acc f) r h
    rcases acc with _ | b0
    · have hpb : pickBetter none f = some f := rfl
      rw [hpb] at hsrc hacc
      have hrf : domFam r f := hacc f rfl
      refine ⟨?_, ?_, ?_⟩
      · rcases hsrc with heq | hmem
        · rw [Option.some_inj] at heq
          subst heq
          exact Or.inr (List.mem_cons_self f rest)
        · exact Or.inr (List.mem_cons_of_mem f hmem)
      · intro g hg
        rcases List.mem_cons.mp hg with heq | hmem
        · subst heq
          exact hrf
        · exact hdom g hmem
      · intro b hb
        simp at hb
    · rcases hpb : pickBetter (some b0) f with _ | c
      · rcases pickBetter_some b0 f with hx | hx <;> rw [hx] at hpb <;>
          simp at hpb
      · rw [hpb] at hsrc hacc
        have hrc : domFam r c := hacc c rfl
        obtain ⟨hcb0, hcf⟩ := pickBetter_dom b0 f c hpb
        have hrb0 : domFam r b0 := domFam_trans hrc hcb0
        have hrf : domFam r f := domFam_trans hrc hcf
        refine ⟨?_, ?_, ?_⟩
        · rcases hsrc with heq | hmem
          · rw [Option.some_inj] at heq
            subst heq
            rcases pickBetter_some b0 f with hx | hx <;> rw [hx] at hpb <;>
              rw [Option.some_inj] at hpb <;> subst hpb
            · exact Or.inl rfl
            · exact Or.inr (List.mem_cons_self f rest)
          · exact Or.inr (List.mem_cons_of_mem f hmem)
        · intro g hg
          rcases List.mem_cons.mp hg with heq | hmem2
          · subst heq
            exact hrf
          · exact hdom g hmem2
        · intro b hb
          rw [Option.some_inj] at hb
          subst hb
          exact hrb0

/-- C9: best-family selection is a deterministic pure function; it returns a
family iff some family's entire prefix is a suffix of the current labels, and
the returned family has the greatest matching prefix length, with ties broken
by the fixed lexicographic order on `family_id` (never incidental iteration
order). -/
theorem best_family_spec :
    ∀ (families : List ActionFamily) (labels : List String),
      (best_family families labels = none ↔
        ∀ f ∈ families, ¬f.pref <:+ labels) ∧
      (∀ f, best_family families labels = some f →
        f ∈ families ∧ f.pref <:+ labels ∧
        ∀ g ∈ families, g.pref <:+ labels →
          g.pref.length ≤ f.pref.length ∧
          (g.pref.length = f.pref.length → f.family_id ≤ g.family_id)) := by
  intro families labels
  constructor
  · constructor
    · intro h f hf hsuf
      obtain ⟨hnil, _⟩ := foldl_pickBetter_none _ _ h
      have : f ∈ families.filter (fun f => decide (f.pref <:+ labels)) :=
        List.mem_filter.mpr ⟨hf, by simpa using hsuf⟩
      rw [hnil] at this
      simp at this
    · intro h
      have hnil : families.filter (fun f => decide (f.pref <:+ labels)) = [] := by
        rw [List.filter_eq_nil]
        intro f hf
        simpa using h f hf
      unfold best_family
      rw [hnil]
      rfl
  · intro f hbest
    obtain ⟨hsrc, hdom, _⟩ := foldl_pickBetter_some _ none f hbest
    have hmemf : f ∈ families.filter (fun f => decide (f.pref <:+ labels)) := by
      rcases hsrc with heq | hmem
      · simp at heq
      · exact hmem
    obtain ⟨hf, hsufb⟩ := List.mem_filter.mp hmemf
    refine ⟨hf, by simpa using hsufb, ?_⟩
    intro g hg hgsuf
    have hgmem : g ∈ families.filter (fun f => decide (f.pref <:+ labels)) :=
      List.mem_filter.mpr ⟨hg, by simpa using hgsuf⟩
    exact hdom g hgmem

/-- Witness for C9: the selected family dominates every other matching
family. -/
theorem best_family_spec_witness :
    wFamA ∈ [wFamA, wFamB] ∧ wFamA.pref <:+ ["a", "b"] ∧
    wFamB.pref.length ≤ wFamA.pref.length ∧
    (wFamB.pref.length = wFamA.pref.length →
      wFamA.family_id ≤ wFamB.family_id) := by
  have h := (best_family_spec [wFamA, wFamB] ["a", "b"]).2 wFamA rfl
  obtain ⟨h1, h2, h3⟩ := h
  obtain ⟨h4, h5⟩ := h3 wFamB (by decide) (by decide)
  exact ⟨h1, h2, h4, h5⟩

theorem seqQualifies_eq (pose_segments : List PoseStatement)
    (labels : List String) (adef : ActionDefinition) (i : Nat)
    (seq : List String) :
    seqQualifies pose_segments labels adef i seq =
      (matchSeq labels seq &&
       check_step_constraints pose_segments seq.length (scAt adef i) &&
       actionOkB pose_segments seq.length adef.action_constraint) := rfl

theorem matchSeq_true {labels seq : List String}
    (h : matchSeq labels seq = true) :
    seq.length ≤ labels.length ∧ sliceLast seq.length labels = seq := by
  unfold matchSeq at h
  rw [Bool.and_eq_true, decide_eq_true_eq, decide_eq_true_eq] at h
  exact h

/-- With a matched, nonempty template the matched segment window is a
nonempty list. -/
theorem matched_window_cons {segs : List PoseStatement} {labels seq : List String}
    (hlab : labels = segs.map PoseStatement.label)
    (hm : matchSeq labels seq = true) (hne : seq ≠ []) :
    ∃ first rest, sliceLast seq.length segs = first :: rest := by
  obtain ⟨hlen, _⟩ := matchSeq_true hm
  have hn : seq.length ≠ 0 := by
    intro h0
    exact hne (List.length_eq_zero.mp h0)
  have hsegs : segs ≠ [] := by
    intro h0
    rw [hlab, h0] at hlen
    simp only [List.map_nil, List.length_nil, Nat.le_zero] at hlen
    exact hn hlen
  have := sliceLast_ne_nil hn hsegs
  rcases hs : sliceLast seq.length segs with _ | ⟨first, rest⟩
  · exact absurd hs this
  · exact ⟨first, rest, rfl⟩

/-- `check_action_constraint` on a nonempty window returns `ok` with the first
matched segment's start time. -/
theorem cac_resolved (segs : List PoseStatement) (n : Nat)
    (ac : Option ActionConstraint) (first : PoseStatement)
    (rest : List PoseStatement) (h : sliceLast n segs = first :: rest) :
    check_action_constraint segs n ac =
      .ok (actionOkB segs n ac, first.start_time) := by
  unfold actionOkB check_action_constraint
  rw [h]
  rcases ac with _ | a
  · rfl
  · by_cases h1 : belowMin ((rest.getLastD first).end_time - first.start_time)
        a.min_total_duration
    · simp only [h1, if_true]
    · simp only [h1, if_false, Bool.false_eq_true]
      by_cases h2 : aboveMax ((rest.getLastD first).end_time - first.start_time)
          a.max_total_duration
      · simp only [h2, if_true]
      · simp only [h2, if_false, Bool.false_eq_true]

/-- The inner template loop of `detect_action` returns the first qualifying
template (in order), as an instance built from the matched window. -/
theorem seqLoop_eq (segs : List PoseStatement) (labels : List String)
    (nm : String) (adef : ActionDefinition) (now_t : ℚ)
    (hlab : labels = segs.map PoseStatement.label) :
    ∀ (seqs : List (List String)) (i : Nat), (∀ s ∈ seqs, s ≠ []) →
      seqLoop segs labels nm adef now_t i seqs =
        .ok ((((seqs.enumFrom i).filter
            (fun e => seqQualifies segs labels adef e.1 e.2)).head?).map
          (fun e => specInstFor segs now_t nm e.2)) := by
  intro seqs
  induction seqs with
  | nil =>
    intro i _
    rfl
  | cons seq rest ih =>
    intro i hne
    have hner : ∀ s ∈ rest, s ≠ [] := fun s hs => hne s (List.mem_cons_of_mem _ hs)
    have hseqne : seq ≠ [] := hne seq (List.mem_cons_self _ _)
    simp only [List.enumFrom_cons, List.filter_cons]
    cases hm : matchSeq labels seq with
    | false =>
      have hq : seqQualifies segs labels adef i seq = false := by
        rw [seqQualifies_eq, hm]
        rfl
      have hlhs : seqLoop segs labels nm adef now_t i (seq :: rest) =
          seqLoop segs labels nm adef now_t (i + 1) rest := by
        conv_lhs => unfold seqLoop
        rw [if_neg (by rw [hm]; simp)]
      rw [hlhs, hq, if_neg (by simp)]
      exact ih (i + 1) hner
    | true =>
      cases hsc : check_step_constraints segs seq.length (scAt adef i) with
      | false =>
        have hq : seqQualifies segs labels adef i seq = false := by
          rw [seqQualifies_eq, hm, hsc]
          rfl
        have hlhs : seqLoop segs labels nm adef now_t i (seq :: rest) =
            seqLoop segs labels nm adef now_t (i + 1) rest := by
          conv_lhs => unfold seqLoop
          rw [if_pos hm, if_neg (by rw [hsc]; simp)]
        rw [hlhs, hq, if_neg (by simp)]
        exact ih (i + 1) hner
      | true =>
        obtain ⟨first, rest', hslice⟩ := matched_window_cons hlab hm hseqne
        have hcac := cac_resolved segs seq.length adef.action_constraint first rest' hslice
        have hstep : seqLoop segs labels nm adef now_t i (seq :: rest) =
            (if actionOkB segs seq.length adef.action_constraint = true then
              Except.ok (some
                { name := nm, matched_sequence := seq, end_time := now_t,
                  start_time := some first.start_time, confidence := 1 })
            else seqLoop segs labels nm adef now_t (i + 1) rest) := by
          conv_lhs => unfold seqLoop
          rw [if_pos hm, if_pos hsc, hcac]
        cases hb : actionOkB segs seq.length adef.action_constraint with
        | true =>
          have hq : seqQualifies segs labels adef i seq = true := by
            rw [seqQualifies_eq, hm, hsc, hb]
            rfl
          rw [hstep, if_pos hb, hq, if_pos rfl]
          simp [specInstFor, hslice]
        | false =>
          have hq : seqQualifies segs labels adef i seq = false := by
            rw [seqQualifies_eq, hm, hsc, hb]
            rfl
          rw [hstep, if_neg (by rw [hb]; simp), hq, if_neg (by simp)]
          exact ih (i + 1) hner

/-- The outer action loop of `detect_action` returns the first qualifying
template across all actions, in iteration order. -/
theorem actionLoop_eq (memory : EpisodeMemory) (now_t : ℚ) :
    ∀ action_defs : List (String × ActionDefinition),
      (∀ p ∈ action_defs, ∀ s ∈ p.2.sequences, s ≠ []) →
      actionLoop memory.pose_segments memory.pose_label_sequence now_t action_defs =
        .ok ((qualifyingTemplates action_defs memory).head?.map
          (fun p => specInstFor memory.pose_segments now_t p.1 p.2)) := by
  intro defs
  induction defs with
  | nil =>
    intro _
    rfl
  | cons p rest ih =>
    intro hne
    rcases p with ⟨nm, adef⟩
    have h1 := seqLoop_eq memory.pose_segments memory.pose_label_sequence nm adef
      now_t rfl adef.sequences 0
      (fun s hs => hne (nm, adef) (List.mem_cons_self _ _) s hs)
    have hqt : qualifyingTemplates ((nm, adef) :: rest) memory =
        ((adef.sequences.enum.filter
            (fun e => seqQualifies memory.pose_segments
              memory.pose_label_sequence adef e.1 e.2)).map
          (fun e => (nm, e.2))) ++ qualifyingTemplates rest memory := rfl
    rw [hqt]
    conv_lhs => unfold actionLoop
    rw [show (List.enumFrom 0 adef.sequences) = adef.sequences.enum from rfl] at h1
    rw [h1]
    rcases hfil : adef.sequences.enum.filter
        (fun e => seqQualifies memory.pose_segments
          memory.pose_label_sequence adef e.1 e.2) with _ | ⟨e, tail⟩
    · rw [hfil]
      exact ih (fun q hq => hne q (List.mem_cons_of_mem _ hq))
    · rw [hfil]
      rfl

/-- C1: for any memory, `detect_action` returns exactly the first template (in
iteration order) whose labels are a suffix of the buffer and whose optional
constraints pass, as an instance with the first matched segment's start time,
`now_t` as end time and confidence exactly 1, appended to
`recognized_actions`; with no qualifying template it returns no match and
leaves the memory unchanged.  In particular feeding standing@t0, picking@t1,
raising_hand@t2 recognizes `picking_objects_from_floor` with start `t0` and
end `t2`. -/
theorem detect_action_spec :
    (∀ (action_defs : List (String × ActionDefinition)) (memory : EpisodeMemory)
       (now_t : ℚ),
       (∀ p ∈ action_defs, ∀ s ∈ p.2.sequences, s ≠ []) →
       detect_action action_defs memory now_t =
         .ok (detectActionModel action_defs memory now_t)) ∧
    (∀ t0 t1 t2 : ℚ,
       detect_action ariannaActionDefs
         (ingestAll {} [("standing", t0), ("picking", t1), ("raising_hand", t2)])
         t2 =
         .ok (some { name := "picking_objects_from_floor",
                     matched_sequence := ["standing", "picking", "raising_hand"],
                     end_time := t2, start_time := some t0, confidence := 1 },
              { pose_segments :=
                  [{ label := "standing", start_time := t0, end_time := t0 },
                   { label := "picking", start_time := t1, end_time := t1 },
                   { label := "raising_hand", start_time := t2, end_time := t2 }],
                recognized_actions :=
                  [{ name := "picking_objects_from_floor",
                     matched_sequence := ["standing", "picking", "raising_hand"],
                     end_time := t2, start_time := some t0, confidence := 1 }],
                executed_tasks := [] })) := by
  constructor
  · intro action_defs memory now_t hne
    unfold detect_action
    rw [actionLoop_eq memory now_t action_defs hne]
    unfold detectActionModel firstQualifying
    rcases (qualifyingTemplates action_defs memory).head? with _ | pr
    · rfl
    · rcases pr with ⟨nm, seq⟩
      rfl
  · intro t0 t1 t2
    rfl

/-- Witness for C1 at the configured actions and a concrete three-segment
memory. -/
theorem detect_action_spec_witness :
    detect_action ariannaActionDefs
      { pose_segments := [{ label := "walking", start_time := 0, end_time := 1 },
                          { label := "sitting", start_time := 1, end_time := 2 },
                          { label := "raising_hand", start_time := 2, end_time := 3 }] }
      3 =
      .ok (detectActionModel ariannaActionDefs
        { pose_segments := [{ label := "walking", start_time := 0, end_time := 1 },
                            { label := "sitting", start_time := 1, end_time := 2 },
                            { label := "raising_hand", start_time := 2, end_time := 3 }] }
        3) := by
  exact detect_action_spec.1 ariannaActionDefs
    { pose_segments := [{ label := "walking", start_time := 0, end_time := 1 },
                        { label := "sitting", start_time := 1, end_time := 2 },
                        { label := "raising_hand", start_time := 2, end_time := 3 }] }
    3 (by decide)

theorem mem_allPrefixesOf {seq q : List String} :
    q ∈ allPrefixesOf seq ↔ q ≠ [] ∧ q <+: seq := by
  unfold allPrefixesOf
  constructor
  · intro h
    rcases List.mem_map.mp h with ⟨k, hk, rfl⟩
    rw [List.mem_range] at hk
    refine ⟨?_, List.take_prefix _ _⟩
    have hlen : (seq.take (k + 1)).length = k + 1 := by
      rw [List.length_take]
      omega
    intro hnil
    rw [hnil] at hlen
    simp at hlen
  · rintro ⟨hne, hpre⟩
    have h2 : 0 < q.length := List.length_pos.mpr hne
    refine List.mem_map.mpr ⟨q.length - 1, ?_, ?_⟩
    · rw [List.mem_range]
      have h1 := hpre.length_le
      omega
    · have h3 : q.length - 1 + 1 = q.length := by omega
      rw [h3]
      exact (List.prefix_iff_eq_take.mp hpre).symm

theorem dictGet_addMember (m : List (List String × List String))
    (pref : List String) (a : String) (q : List String) :
    dictGet (addMember m pref a) q =
      if q = pref then some (insertNew ((dictGet m q).getD []) a)
      else dictGet m q := by
  induction m with
  | nil =>
    by_cases h : q = pref
    · subst h
      simp [addMember, dictGet, insertNew]
    · have h2 : ¬ pref = q := fun hc => h hc.symm
      simp [addMember, dictGet, h, h2]
  | cons p rest ih =>
    rcases p with ⟨k, v⟩
    unfold addMember
    by_cases hk : k = pref
    · rw [if_pos hk]
      subst hk
      unfold dictGet
      by_cases hq : k = q
      · subst hq
        rw [if_pos rfl, if_pos rfl]
        simp [insertNew]
      · rw [if_neg hq, if_neg hq, if_neg (fun h => hq h.symm)]
    · rw [if_neg hk]
      unfold dictGet
      by_cases hq : k = q
      · rw [if_pos hq, if_pos hq, if_neg (fun h => hk (hq.trans h))]
      · rw [if_neg hq, if_neg hq, ih]

theorem keys_addMember (m : List (List String × List String)) (pref : List String)
    (a : String) :
    (addMember m pref a).map Prod.fst =
      if pref ∈ m.map Prod.fst then m.map Prod.fst
      else m.map Prod.fst ++ [pref] := by
  induction m with
  | nil =>
    show [(pref, [a])].map Prod.fst = _
    simp
  | cons p rest ih =>
    rcases p with ⟨k, v⟩
    unfold addMember
    by_cases hk : k = pref
    · rw [if_pos hk]
      subst hk
      simp
    · rw [if_neg hk]
      simp only [List.map_cons]
      rw [ih]
      by_cases hm : pref ∈ rest.map Prod.fst
      · rw [if_pos hm, if_pos (List.mem_cons_of_mem _ hm)]
      · rw [if_neg hm, if_neg ?_]
        · simp
        · intro hc
          rcases List.mem_cons.mp hc with h | h
          · exact hk h.symm
          · exact hm h

theorem keys_addMember_nodup {m : List (List String × List String)}
    (h : (m.map Prod.fst).Nodup) (pref : List String) (a : String) :
    ((addMember m pref a).map Prod.fst).Nodup := by
  rw [keys_addMember]
  by_cases hm : pref ∈ m.map Prod.fst
  · rw [if_pos hm]
    exact h
  · rw [if_neg hm]
    refine List.nodup_append.mpr ⟨h, List.nodup_singleton _, ?_⟩
    intro x hx hx1
    rw [List.mem_singleton] at hx1
    subst hx1
    exact hm hx

theorem foldl_preserves {α β : Type} {P : α → Prop} {g : α → β → α}
    (h : ∀ m x, P m → P (g m x)) :
    ∀ (l : List β) (init : α), P init → P (l.foldl g init) := by
  intro l
  induction l with
  | nil => intro init hi; exact hi
  | cons x xs ih => intro init hi; exact ih _ (h init x hi)

theorem buildPrefixMap_keys_nodup (action_defs : List (String × ActionDefinition)) :
    ((buildPrefixMap action_defs).map Prod.fst).Nodup := by
  have hstep : ∀ (m : List (List String × List String)) (p : String × ActionDefinition),
      (m.map Prod.fst).Nodup →
      (((p.2.sequences.foldl (fun m seq => addSeqPrefixes m p.1 seq) m)).map Prod.fst).Nodup := by
    intro m p hm
    refine @foldl_preserves _ _ (fun m => (m.map Prod.fst).Nodup) _ ?_ p.2.sequences m hm
    intro m seq hm
    unfold addSeqPrefixes
    refine @foldl_preserves _ _ (fun m => (m.map Prod.fst).Nodup) _ ?_ (allPrefixesOf seq) m hm
    intro m pref hm
    exact keys_addMember_nodup hm pref p.1
  unfold buildPrefixMap
  exact @foldl_preserves _ _ (fun m => (m.map Prod.fst).Nodup) _ hstep action_defs [] (by simp)

theorem mem_insertNew_self (v : List String) (a : String) : a ∈ insertNew v a := by
  unfold insertNew
  by_cases h : a ∈ v
  · rw [if_pos h]
    exact h
  · rw [if_neg h]
    simp

theorem insertNew_idem (v : List String) (a : String) :
    insertNew (insertNew v a) a = insertNew v a := by
  unfold insertNew
  by_cases hv : a ∈ v
  · simp [hv]
  · simp [hv]

theorem dictGet_foldPrefs (a : String) (q : List String) :
    ∀ (P : List (List String)) (m : List (List String × List String)),
      dictGet (P.foldl (fun m pref => addMember m pref a) m) q =
        if q ∈ P then some (insertNew ((dictGet m q).getD []) a) else dictGet m q := by
  intro P
  induction P with
  | nil => intro m; simp
  | cons p P ih =>
    intro m
    rw [List.foldl_cons, ih]
    by_cases hq : q = p
    · subst hq
      rw [dictGet_addMember, if_pos rfl, if_pos (List.mem_cons_self _ _)]
      by_cases hm : q ∈ P
      · rw [if_pos hm]
        simp [insertNew_idem]
      · rw [if_neg hm]
    · rw [dictGet_addMember, if_neg hq]
      by_cases hm : q ∈ P
      · rw [if_pos hm, if_pos (List.mem_cons_of_mem _ hm)]
      · rw [if_neg hm, if_neg ?_]
        intro hc
        rcases List.mem_cons.mp hc with h | h
        · exact hq h
        · exact hm h

theorem dictGet_addSeqPrefixes (m : List (List String × List String)) (a : String)
    (seq q : List String) :
    dictGet (addSeqPrefixes m a seq) q =
      if q ≠ [] ∧ q <+: seq then some (insertNew ((dictGet m q).getD []) a)
      else dictGet m q := by
  unfold addSeqPrefixes
  rw [dictGet_foldPrefs]
  by_cases h : q ∈ allPrefixesOf seq
  · rw [if_pos h, if_pos (mem_allPrefixesOf.mp h)]
  · rw [if_neg h, if_neg (fun hc => h (mem_allPrefixesOf.mpr hc))]

theorem dictGet_seqFold (a : String) (q : List String) :
    ∀ (seqs : List (List String)) (m : List (List String × List String)),
      dictGet (seqs.foldl (fun m seq => addSeqPrefixes m a seq) m) q =
        if seqs.any (fun seq => decide (q ≠ []) && decide (q <+: seq)) then
          some (insertNew ((dictGet m q).getD []) a)
        else dictGet m q := by
  intro seqs
  induction seqs with
  | nil => intro m; simp
  | cons s seqs ih =>
    intro m
    rw [List.foldl_cons, ih, dictGet_addSeqPrefixes]
    by_cases hs : q ≠ [] ∧ q <+: s
    · rw [if_pos hs]
      have hb : (decide (q ≠ []) && decide (q <+: s)) = true := by
        simp [hs.1, hs.2]
      by_cases hrest : seqs.any (fun seq => decide (q ≠ []) && decide (q <+: seq)) = true
      · rw [if_pos hrest, if_pos (by rw [List.any_cons, hb, Bool.true_or])]
        simp [insertNew_idem]
      · rw [if_neg hrest, if_pos (by rw [List.any_cons, hb, Bool.true_or])]
    · rw [if_neg hs]
      have hb : (decide (q ≠ []) && decide (q <+: s)) = false := by
        rcases Decidable.not_and_iff_or_not.mp hs with h | h <;> simp [h]
      by_cases hrest : seqs.any (fun seq => decide (q ≠ []) && decide (q <+: seq)) = true
      · rw [if_pos hrest, if_pos (by rw [List.any_cons, hb, Bool.false_or]; exact hrest)]
      · rw [if_neg hrest, if_neg (by rw [List.any_cons, hb, Bool.false_or]; exact hrest)]

theorem dictGet_bpmFrom (q : List String) :
    ∀ (action_defs : List (String × ActionDefinition))
      (m : List (List String × List String)),
      dictGet (action_defs.foldl
          (fun m p => p.2.sequences.foldl (fun m seq => addSeqPrefixes m p.1 seq) m) m) q =
        (dictGet m q).elim
          (if prefixOccurs action_defs q then some (addMembers action_defs q []) else none)
          (fun v => some (addMembers action_defs q v)) := by
  intro action_defs
  induction action_defs with
  | nil =>
    intro m
    rcases h : dictGet m q with _ | v <;>
      simp [h, addMembers, prefixOccurs]
  | cons p defs ih =>
    intro m
    rw [List.foldl_cons, ih, dictGet_seqFold]
    by_cases hp : hasPref p.2 q = true
    · have hp2 : (p.2.sequences.any fun seq => decide (q ≠ []) && decide (q <+: seq)) = true := hp
      rw [if_pos hp2]
      have hocc : prefixOccurs (p :: defs) q = true := by
        unfold prefixOccurs
        rw [List.any_cons, hp, Bool.true_or]
      have hstep : ∀ v : List String,
          addMembers (p :: defs) q v = addMembers defs q (insertNew v p.1) := by
        intro v
        unfold addMembers
        rw [List.foldl_cons, if_pos hp]
      rcases h : dictGet m q with _ | v
      · simp [h, hocc, hstep]
      · simp [h, hocc, hstep]
    · have hp2 : ¬ (p.2.sequences.any fun seq => decide (q ≠ []) && decide (q <+: seq)) = true := hp
      rw [if_neg hp2]
      have hpf : hasPref p.2 q = false := by
        rcases hb : hasPref p.2 q with _ | _
        · rfl
        · exact absurd hb hp
      have hocc : prefixOccurs (p :: defs) q = prefixOccurs defs q := by
        unfold prefixOccurs
        rw [List.any_cons, hpf, Bool.false_or]
      have hstep : ∀ v : List String,
          addMembers (p :: defs) q v = addMembers defs q v := by
        intro v
        unfold addMembers
        rw [List.foldl_cons, if_neg (by rw [hpf]; exact Bool.false_ne_true)]
      rcases h : dictGet m q with _ | v
      · simp [h, hocc, hstep]
      · simp [h, hocc, hstep]

theorem dictGet_buildPrefixMap (action_defs : List (String × ActionDefinition))
    (q : List String) :
    dictGet (buildPrefixMap action_defs) q =
      if prefixOccurs action_defs q then some (addMembers action_defs q []) else none := by
  unfold buildPrefixMap
  rw [dictGet_bpmFrom]
  rfl

theorem addMembers_eq_memberNames (q : List String) :
    ∀ (action_defs : List (String × ActionDefinition)) (v : List String),
      (action_defs.map Prod.fst).Nodup → (∀ p ∈ action_defs, p.1 ∉ v) →
      addMembers action_defs q v = v ++ memberNames action_defs q := by
  intro action_defs
  induction action_defs with
  | nil =>
    intro v _ _
    simp [addMembers, memberNames]
  | cons p defs ih =>
    intro v hnd hv
    rw [List.map_cons, List.nodup_cons] at hnd
    by_cases hp : hasPref p.2 q = true
    · have h1 : insertNew v p.1 = v ++ [p.1] := by
        unfold insertNew
        rw [if_neg (hv p (List.mem_cons_self _ _))]
      have h2 : ∀ p' ∈ defs, p'.1 ∉ v ++ [p.1] := by
        intro p' hp' hc
        rcases List.mem_append.mp hc with h | h
        · exact hv p' (List.mem_cons_of_mem _ hp') h
        · rw [List.mem_singleton] at h
          exact hnd.1 (List.mem_map.mpr ⟨p', hp', h⟩)
      have hstep : addMembers (p :: defs) q v = addMembers defs q (insertNew v p.1) := by
        unfold addMembers
        rw [List.foldl_cons, if_pos hp]
      rw [hstep, h1, ih _ hnd.2 h2, List.append_assoc]
      congr 1
      unfold memberNames
      rw [List.filter_cons, if_pos hp, List.map_cons]
      rfl
    · have hpf : hasPref p.2 q = false := by
        rcases hb : hasPref p.2 q with _ | _
        · rfl
        · exact absurd hb hp
      have hstep : addMembers (p :: defs) q v = addMembers defs q v := by
        unfold addMembers
        rw [List.foldl_cons, if_neg (by rw [hpf]; exact Bool.false_ne_true)]
      rw [hstep, ih _ hnd.2 (fun p' h => hv p' (List.mem_cons_of_mem _ h))]
      congr 1
      unfold memberNames
      rw [List.filter_cons, if_neg (by rw [hpf]; exact Bool.false_ne_true)]

theorem setKey_not_mem {α β : Type} [DecidableEq α] {m : List (α × β)} {k : α}
    (h : k ∉ m.map Prod.fst) (v : β) : setKey m k v = m ++ [(k, v)] := by
  induction m with
  | nil => rfl
  | cons p rest ih =>
    rcases p with ⟨k', v'⟩
    rw [List.map_cons] at h
    have hk : k' ≠ k := fun he => h (by simp [he])
    have hr : k ∉ rest.map Prod.fst := fun hm => h (List.mem_cons_of_mem _ hm)
    unfold setKey
    rw [if_neg hk, ih hr, List.cons_append]

theorem famFold_eq (minL minM : Nat) (ptp : List (List String × String)) :
    ∀ (l : List (List String × List String)) (acc : List (String × ActionFamily)),
      (∀ pm ∈ l, familyId pm.1 ∉ acc.map Prod.fst) →
      (l.map (fun pm => familyId pm.1)).Nodup →
      l.foldl
        (fun families pm =>
          if pm.1.length < minL then families
          else if pm.2.length < minM then families
          else
            setKey families (familyId pm.1)
              { family_id := familyId pm.1
                pref := pm.1
                members := pm.2
                pre_task := dictGet ptp pm.1 }) acc =
      acc ++ (l.filter (fun pm =>
          decide (minL ≤ pm.1.length) && decide (minM ≤ pm.2.length))).map
        (fun pm =>
          (familyId pm.1,
           { family_id := familyId pm.1
             pref := pm.1
             members := pm.2
             pre_task := dictGet ptp pm.1 })) := by
  intro l
  induction l with
  | nil =>
    intro acc _ _
    simp
  | cons pm l ih =>
    intro acc hacc hnd
    rw [List.map_cons, List.nodup_cons] at hnd
    rw [List.foldl_cons]
    by_cases h1 : pm.1.length < minL
    · rw [if_pos h1, ih _ (fun pm' h => hacc pm' (List.mem_cons_of_mem _ h)) hnd.2]
      have hL : ¬ (minL ≤ pm.1.length) := Nat.not_le.mpr h1
      congr 1
      rw [List.filter_cons, if_neg (by simp [hL])]
    · rw [if_neg h1]
      by_cases h2 : pm.2.length < minM
      · rw [if_pos h2, ih _ (fun pm' h => hacc pm' (List.mem_cons_of_mem _ h)) hnd.2]
        have hM : ¬ (minM ≤ pm.2.length) := Nat.not_le.mpr h2
        congr 1
        rw [List.filter_cons, if_neg (by simp [hM])]
      · rw [if_neg h2, setKey_not_mem (hacc pm (List.mem_cons_self _ _)) _]
        rw [ih _ ?hacc2 hnd.2]
        case hacc2 =>
          intro pm' h hcontra
          rw [List.map_append, List.mem_append] at hcontra
          rcases hcontra with h' | h'
          · exact hacc pm' (List.mem_cons_of_mem _ h) h'
          · rw [List.map_cons, List.map_nil, List.mem_singleton] at h'
            have h'' : familyId pm'.1 = familyId pm.1 := h'
            exact hnd.1 (h'' ▸ List.mem_map.mpr ⟨pm', h, rfl⟩)
        rw [List.append_assoc]
        congr 1
        have hL : minL ≤ pm.1.length := Nat.not_lt.mp h1
        have hM : minM ≤ pm.2.length := Nat.not_lt.mp h2
        rw [List.filter_cons, if_pos (by simp [hL, hM]), List.map_cons]
        rfl

theorem build_action_families_eq (action_defs : List (String × ActionDefinition))
    (minL minM : Nat) (ptp : List (List String × String))
    (hinj : ∀ p ∈ (buildPrefixMap action_defs).map Prod.fst,
        ∀ q ∈ (buildPrefixMap action_defs).map Prod.fst,
        familyId p = familyId q → p = q) :
    build_action_families action_defs minL minM ptp =
      ((buildPrefixMap action_defs).filter
          (fun pm => decide (minL ≤ pm.1.length) && decide (minM ≤ pm.2.length))).map
        (fun pm =>
          (familyId pm.1,
           { family_id := familyId pm.1
             pref := pm.1
             members := pm.2
             pre_task := dictGet ptp pm.1 })) := by
  have hnd : ((buildPrefixMap action_defs).map (fun pm => familyId pm.1)).Nodup := by
    have h1 := buildPrefixMap_keys_nodup action_defs
    have h2 : (((buildPrefixMap action_defs).map Prod.fst).map familyId).Nodup :=
      h1.map_on (fun p hp q hq he => hinj p hp q hq he)
    rw [List.map_map] at h2
    exact h2
  have h := famFold_eq minL minM ptp (buildPrefixMap action_defs) [] (by simp) hnd
  unfold build_action_families
  rw [h, List.nil_append]

theorem buildPrefixMap_value {action_defs : List (String × ActionDefinition)}
    (hkeys : (action_defs.map Prod.fst).Nodup)
    {pm : List String × List String} (h : pm ∈ buildPrefixMap action_defs) :
    prefixOccurs action_defs pm.1 = true ∧ pm.2 = memberNames action_defs pm.1 := by
  have hmem : (pm.1, pm.2) ∈ buildPrefixMap action_defs := by
    rcases pm with ⟨k, v⟩
    exact h
  have hget : dictGet (buildPrefixMap action_defs) pm.1 = some pm.2 :=
    mem_dictGet_of_nodup (buildPrefixMap_keys_nodup _) hmem
  rw [dictGet_buildPrefixMap] at hget
  by_cases hocc : prefixOccurs action_defs pm.1 = true
  · rw [if_pos hocc] at hget
    refine ⟨hocc, ?_⟩
    have h2 : addMembers action_defs pm.1 [] = memberNames action_defs pm.1 := by
      have h3 := addMembers_eq_memberNames pm.1 action_defs [] hkeys (by simp)
      simpa using h3
    injection hget with hget
    rw [← hget, h2]
  · rw [if_neg hocc] at hget
    exact absurd hget (by simp)

/-- C6 (amended): assuming the configured action names are distinct and
`familyId` is injective on the occurring prefixes (which the code does not
guarantee: `familyId` joins labels with `"_"`, so distinct prefixes can
collide and the later one silently overwrites the earlier family),
`build_action_families` produces a family for a prefix iff the prefix is a
nonempty prefix of some action's template, has length at least
`min_prefix_len`, and is shared by at least `min_members` distinct action
names; each produced family is keyed by `familyId` of its prefix, carries
that id, has as members exactly the actions sharing the prefix (in
configuration order), and gets a pre_task exactly when the exact prefix
appears in the pretask mapping. -/
theorem build_action_families_spec
    (action_defs : List (String × ActionDefinition)) (minL minM : Nat)
    (ptp : List (List String × String))
    (hkeys : (action_defs.map Prod.fst).Nodup)
    (hinj : ∀ p ∈ (buildPrefixMap action_defs).map Prod.fst,
        ∀ q ∈ (buildPrefixMap action_defs).map Prod.fst,
        familyId p = familyId q → p = q) :
    (∀ pref : List String,
      (∃ fam ∈ build_action_families action_defs minL minM ptp, fam.2.pref = pref) ↔
        (prefixOccurs action_defs pref = true ∧ minL ≤ pref.length ∧
         minM ≤ (memberNames action_defs pref).length)) ∧
    (∀ fam ∈ build_action_families action_defs minL minM ptp,
      fam.1 = familyId fam.2.pref ∧
      fam.2.family_id = familyId fam.2.pref ∧
      fam.2.members = memberNames action_defs fam.2.pref ∧
      fam.2.pre_task = dictGet ptp fam.2.pref) := by
  have heq := build_action_families_eq action_defs minL minM ptp hinj
  constructor
  · intro pref
    constructor
    · rintro ⟨fam, hmem, hpref⟩
      rw [heq] at hmem
      rcases List.mem_map.mp hmem with ⟨pm, hpm, hfam⟩
      rcases List.mem_filter.mp hpm with ⟨hpmm, hq⟩
      have hval := buildPrefixMap_value hkeys hpmm
      have hprefeq : pm.1 = pref := by
        rw [← hfam] at hpref
        exact hpref
      rw [Bool.and_eq_true, decide_eq_true_iff, decide_eq_true_iff] at hq
      refine ⟨by rw [← hprefeq]; exact hval.1, by rw [← hprefeq]; exact hq.1, ?_⟩
      rw [← hprefeq, ← hval.2]
      exact hq.2
    · rintro ⟨hocc, hL, hM⟩
      have hmemb : addMembers action_defs pref [] = memberNames action_defs pref := by
        have h3 := addMembers_eq_memberNames pref action_defs [] hkeys (by simp)
        simpa using h3
      have hget : dictGet (buildPrefixMap action_defs) pref =
          some (memberNames action_defs pref) := by
        rw [dictGet_buildPrefixMap, if_pos hocc, hmemb]
      have hpm : (pref, memberNames action_defs pref) ∈ buildPrefixMap action_defs :=
        dictGet_mem hget
      refine ⟨(familyId pref,
               { family_id := familyId pref
                 pref := pref
                 members := memberNames action_defs pref
                 pre_task := dictGet ptp pref }), ?_, rfl⟩
      rw [heq]
      refine List.mem_map.mpr ⟨(pref, memberNames action_defs pref), ?_, rfl⟩
      refine List.mem_filter.mpr ⟨hpm, ?_⟩
      rw [Bool.and_eq_true, decide_eq_true_iff, decide_eq_true_iff]
      exact ⟨hL, hM⟩
  · intro fam hmem
    rw [heq] at hmem
    rcases List.mem_map.mp hmem with ⟨pm, hpm, hfam⟩
    rcases List.mem_filter.mp hpm with ⟨hpmm, _⟩
    have hval := buildPrefixMap_value hkeys hpmm
    rw [← hfam]
    exact ⟨rfl, rfl, hval.2.symm ▸ rfl, rfl⟩

/-- Counterexample to the unqualified C6 claim: with two actions both having
the templates `["a", "b_c"]` and `["a_b", "c"]`, the prefix `["a", "b_c"]`
qualifies (length 2 with two members, thresholds 2 and 2) and its family id
collides with that of `["a_b", "c"]` — `build_action_families` outputs no
family whose prefix is `["a", "b_c"]`. -/
theorem build_action_families_counterexample :
    prefixOccurs cexDefsC6 ["a", "b_c"] = true ∧
    2 ≤ (["a", "b_c"] : List String).length ∧
    2 ≤ (memberNames cexDefsC6 ["a", "b_c"]).length ∧
    familyId ["a", "b_c"] = familyId ["a_b", "c"] ∧
    ∀ fam ∈ build_action_families cexDefsC6 2 2 [], fam.2.pref ≠ ["a", "b_c"] := by
  decide

/-- Witness for C6 at the shipped configuration: the prefix
`["sitting", "standing", "walking"]` (shared by drinking_water,
waste_disposal and washing_hands) gets a family. -/
theorem build_action_families_spec_witness :
    ∃ fam ∈ build_action_families ariannaActionDefs 2 2 ariannaPretaskByPrefix,
      fam.2.pref = ["sitting", "standing", "walking"] :=
  ((build_action_families_spec ariannaActionDefs 2 2 ariannaPretaskByPrefix
      (by decide) (by decide)).1 ["sitting", "standing", "walking"]).mpr (by decide)
